import Mathlib

/-!
Shallow embedding of the signaling worker in `src/worker/signaling-worker.js`.

The worker keeps a global `rooms : Map roomId → {keyHash, peers : Map id → peer}`
and, per connection, a mutable `peer` object.  Because the JS `Map` stores the
very peer objects that the handlers mutate, the embedding keeps a single store
of peer records (`WState.peers`) and lets rooms hold the member *ids* in
insertion order; looking a member id up in the store is the JS dereference of
the stored object.  JS `Map` iteration order is insertion order, which the
`List`s preserve.

Sockets: a send to a stale socket throws in JS.  We model the socket layer by a
function `stale : String → Bool` (peer id ↦ "send to this peer's socket
throws").  `broadcast` wraps each send in try/catch (ignores stale sockets);
the unguarded unicast sends in `joinRoom`/`relaySignal` propagate the throw to
the `message` listener, whose catch block replies with the generic
`Invalid JSON message` error notice.  Operations therefore return
`(state, delivered events, threw?)`, aborting at the first throwing send.
-/

/-- Display identity generated by `randomName()`; opaque for the protocol. -/
structure PeerName where
  displayName : String
  deviceName : String
deriving DecidableEq, Repr

/-- The per-connection `peer` object created in `fetch` (socket handle elided;
it is identified by `id` together with the ambient `stale` function). -/
structure Peer where
  id : String
  roomId : Option String
  roomKeyHash : String
  name : PeerName
  rtcSupported : Bool
deriving DecidableEq, Repr

/-- The shape produced by `asPeerInfo`. -/
structure PeerInfo where
  id : String
  rtcSupported : Bool
  name : PeerName
deriving DecidableEq, Repr

/-- A room: `{ keyHash, peers }`, members kept as ids in insertion order. -/
structure Room where
  keyHash : String
  members : List String
deriving DecidableEq, Repr

/-- The worker's global state: all live peer objects plus the `rooms` map. -/
structure WState where
  peers : List Peer
  rooms : List (String × Room)
deriving DecidableEq, Repr

/-- Outbound messages (`JSON.stringify` payloads sent over sockets). -/
inductive OutMsg where
  | welcome (peerId roomId : String) (peers : List PeerInfo)
      (displayName deviceName : String)
  | peerJoined (peer : PeerInfo)
  | peerLeft (peerId : String)
  | signal (sender : String) (sdp ice : Option String)
  | roomKeyMismatch
  | error (message : String)
deriving DecidableEq, Repr

/-- Inbound messages after JSON decoding, discriminated on `msg.type`.
`join.roomId`/`join.roomKeyHash` carry `String(msg.field || '')`; a missing
`rtcSupported` is `none` (`msg.rtcSupported !== false` is then true).
`toId` is the `to` field of a `signal` message. -/
inductive InMsg where
  | join (roomId roomKeyHash : String) (rtcSupported : Option Bool)
  | signal (toId : String) (sdp ice : Option String)
  | disconnect
  | pong
  | other
deriving DecidableEq, Repr

/-- Whitespace for `jsTrim` (space, tab, newline, carriage return). -/
def isWS (c : Char) : Bool :=
  c == ' ' || c == '\t' || c == '\n' || c == '\r'

/-- Model of the JS builtin `String.prototype.trim` (not repository code):
strip leading and trailing whitespace. -/
def jsTrim (s : String) : String :=
  ⟨((s.data.dropWhile isWS).reverse.dropWhile isWS).reverse⟩

/-- Events actually delivered: recipient peer id paired with the message. -/
abbrev Ev := String × OutMsg

/-- Dereference a peer id in the store (the JS object held by maps/closures). -/
def findPeer (st : WState) (pid : String) : Option Peer :=
  st.peers.find? (fun p => p.id == pid)

/-- `rooms.get(roomId)`. -/
def lookupRoom (rs : List (String × Room)) (rid : String) : Option Room :=
  match rs with
  | [] => none
  | (k, r) :: rest => if k = rid then some r else lookupRoom rest rid

/-- In-place update of the room stored under `rid` (JS mutates the object). -/
def updateRoom (rs : List (String × Room)) (rid : String) (f : Room → Room) :
    List (String × Room) :=
  rs.map (fun kr => (kr.1, if kr.1 = rid then f kr.2 else kr.2))

/-- `rooms.delete(roomId)`. -/
def eraseRoom (rs : List (String × Room)) (rid : String) : List (String × Room) :=
  rs.filter (fun kr => kr.1 ≠ rid)

/-- In-place mutation of the peer object with id `pid`. -/
def updatePeer (st : WState) (pid : String) (f : Peer → Peer) : WState :=
  { st with peers := st.peers.map (fun p => if p.id = pid then f p else p) }

/-- `room.peers.set(peer.id, peer)`: appends iff the key is absent. -/
def memberSet (ms : List String) (pid : String) : List String :=
  if ms.contains pid then ms else ms ++ [pid]

/-- `asPeerInfo(peer)`. -/
def asPeerInfo (p : Peer) : PeerInfo :=
  ⟨p.id, p.rtcSupported, p.name⟩

/-- One unguarded `socket.send`: delivers unless the socket is stale, in which
case nothing is delivered and the send throws. -/
def sendTo (stale : String → Bool) (pid : String) (m : OutMsg) :
    List Ev × Bool :=
  if stale pid then ([], true) else ([(pid, m)], false)

/-- The test `exceptId && peer.id === exceptId` in `broadcast` (JS truthiness:
a `null` or empty-string `exceptId` excludes nobody). -/
def exceptCheck (exceptId : Option String) (mid : String) : Bool :=
  match exceptId with
  | some e => decide (e ≠ "") && (mid == e)
  | none => false

/-- `broadcast(room, payload, exceptId)`: fan-out over `room.peers` in
insertion order, skipping `exceptId` and swallowing per-recipient send
failures (`try { peer.socket.send(data) } catch (_) {}`). -/
def broadcast (stale : String → Bool) (room : Room) (payload : OutMsg)
    (exceptId : Option String) : List Ev :=
  room.members.filterMap (fun mid =>
    if exceptCheck exceptId mid then none
    else if stale mid then none
    else some (mid, payload))

/-- `getOrCreateRoom(roomId, keyHash)`. -/
def getOrCreateRoom (st : WState) (roomId keyHash : String) : WState × Room :=
  match lookupRoom st.rooms roomId with
  | some r => (st, r)
  | none =>
    let r : Room := ⟨keyHash, []⟩
    ({ st with rooms := st.rooms ++ [(roomId, r)] }, r)

/-- `leaveRoom(peer)`.  Only broadcasts, so it never throws. -/
def leaveRoom (stale : String → Bool) (st : WState) (pid : String) :
    WState × List Ev :=
  match findPeer st pid with
  | none => (st, [])
  | some peer =>
    match peer.roomId with
    | none => (st, [])
    | some rid =>
      match lookupRoom st.rooms rid with
      | none => (st, [])
      | some room =>
        let room1 : Room := { room with members := room.members.erase pid }
        let st1 : WState :=
          { st with rooms := updateRoom st.rooms rid (fun _ => room1) }
        let evs := broadcast stale room1 (.peerLeft pid) (some pid)
        let st2 := if room1.members.isEmpty then
            { st1 with rooms := eraseRoom st1.rooms rid }
          else st1
        (updatePeer st2 pid (fun p => { p with roomId := none }), evs)

/-- `joinRoom(peer, msg)`.  The mismatch reply and the welcome are unguarded
sends and may throw (third component). -/
def joinRoom (stale : String → Bool) (st : WState) (pid : String)
    (roomId0 roomKeyHash0 : String) (rtcSupported : Option Bool) :
    WState × List Ev × Bool :=
  let roomId := jsTrim roomId0
  if roomId = "" then (st, [], false)
  else
    match findPeer st pid with
    | none => (st, [], false)
    | some peer =>
      let keyHash := roomKeyHash0
      let sr := getOrCreateRoom st roomId keyHash
      let st1 := sr.1
      let room := sr.2
      if room.keyHash ≠ "" ∧ keyHash ≠ room.keyHash then
        let s := sendTo stale pid .roomKeyMismatch
        (st1, s.1, s.2)
      else
        let st2 := if room.keyHash = "" ∧ keyHash ≠ "" then
            { st1 with rooms :=
                updateRoom st1.rooms roomId (fun r => { r with keyHash := keyHash }) }
          else st1
        let left := if (match peer.roomId with
            | some old => decide (old ≠ "") && decide (old ≠ roomId)
            | none => false) then leaveRoom stale st2 pid else (st2, [])
        let st3 := left.1
        let evs1 := left.2
        let peerA : Peer :=
          { peer with
            roomId := some roomId
            roomKeyHash := keyHash
            rtcSupported := rtcSupported != some false }
        let st4 := updatePeer st3 pid (fun p =>
          { p with
            roomId := some roomId
            roomKeyHash := keyHash
            rtcSupported := rtcSupported != some false })
        let st5 : WState :=
          { st4 with
            rooms := updateRoom st4.rooms roomId
              (fun r => { r with members := memberSet r.members pid }) }
        match lookupRoom st5.rooms roomId with
        | none => (st5, evs1, false)
        | some roomF =>
          let roster := ((roomF.members.filterMap (fun mid => findPeer st5 mid)).filter
            (fun p => p.id ≠ pid)).map asPeerInfo
          let w := sendTo stale pid (.welcome pid roomId roster
            peerA.name.displayName peerA.name.deviceName)
          if w.2 then (st5, evs1 ++ w.1, true)
          else
            let evs3 := broadcast stale roomF (.peerJoined (asPeerInfo peerA)) (some pid)
            (st5, evs1 ++ w.1 ++ evs3, false)

/-- `relaySignal(peer, msg)`.  The relay send is unguarded and may throw. -/
def relaySignal (stale : String → Bool) (st : WState) (pid toId : String)
    (sdp ice : Option String) : WState × List Ev × Bool :=
  match findPeer st pid with
  | none => (st, [], false)
  | some peer =>
    match peer.roomId with
    | none => (st, [], false)
    | some rid =>
      match lookupRoom st.rooms rid with
      | none => (st, [], false)
      | some room =>
        if room.members.contains toId then
          let s := sendTo stale toId (.signal pid sdp ice)
          (st, s.1, s.2)
        else (st, [], false)

/-- `onMessage(peer, msg)`: dispatch on `msg.type`; unknown types and `pong`
are no-ops. -/
def onMessage (stale : String → Bool) (st : WState) (pid : String) (m : InMsg) :
    WState × List Ev × Bool :=
  match m with
  | .join roomId keyHash rtc => joinRoom stale st pid roomId keyHash rtc
  | .signal toId sdp ice => relaySignal stale st pid toId sdp ice
  | .disconnect =>
    let r := leaveRoom stale st pid
    (r.1, r.2, false)
  | .pong => (st, [], false)
  | .other => (st, [], false)

/-- The `message` listener: `none` is a frame `JSON.parse` rejects (reply with
the error notice); a throw out of `onMessage` lands in the same catch block.
The catch block's own send is unguarded too: if the sender's socket is stale
the notice is lost (the exception escapes the listener). -/
def handleFrame (stale : String → Bool) (st : WState) (pid : String)
    (frame : Option InMsg) : WState × List Ev :=
  match frame with
  | none => (st, (sendTo stale pid (.error "Invalid JSON message")).1)
  | some m =>
    let r := onMessage stale st pid m
    if r.2.2 then (r.1, r.2.1 ++ (sendTo stale pid (.error "Invalid JSON message")).1)
    else (r.1, r.2.1)

/-- A freshly accepted connection's peer object (`crypto.randomUUID()` id,
`randomName()` identity). -/
def initPeer (id : String) (name : PeerName) : Peer :=
  ⟨id, none, "", name, true⟩

/-- One observable operation of the worker: a new connection (fresh id), an
inbound frame (well-formed or not) from a connected peer, or a socket
close/error event (both run `leaveRoom`). -/
inductive Step : WState → WState → Prop where
  | connect (st : WState) (id : String) (name : PeerName) :
      (∀ q ∈ st.peers, q.id ≠ id) →
      Step st { st with peers := st.peers ++ [initPeer id name] }
  | frame (st : WState) (stale : String → Bool) (pid : String) (f : Option InMsg) :
      (∃ p ∈ st.peers, p.id = pid) →
      Step st (handleFrame stale st pid f).1
  | socketClosed (st : WState) (stale : String → Bool) (pid : String) :
      (∃ p ∈ st.peers, p.id = pid) →
      Step st (leaveRoom stale st pid).1

/-- The worker starts with no connections and no rooms. -/
def initState : WState := ⟨[], []⟩

/-- States the worker can actually be in. -/
def Reachable (st : WState) : Prop :=
  Relation.ReflTransGen Step initState st

/-- A fixed display identity for concrete scenarios (one draw of `randomName`). -/
def demoName : PeerName := ⟨"Swift-Otter", "Swift-Otter Desktop"⟩

/-- Concrete run: the worker state after peer `"a"` connects. -/
def demo1 : WState := { peers := [initPeer "a" demoName], rooms := [] }

/-- Concrete run: `"a"` has joined room `"r"` with key `"k1"`. -/
def demo2 : WState :=
  (handleFrame (fun _ => false) demo1 "a" (some (.join "r" "k1" none))).1

/-- Concrete run: peer `"b"` has connected. -/
def demo3 : WState := { demo2 with peers := demo2.peers ++ [initPeer "b" demoName] }

/-- Concrete run: `"b"` has joined room `"r2"` with key `"k2"`. -/
def demo4 : WState :=
  (handleFrame (fun _ => false) demo3 "b" (some (.join "r2" "k2" none))).1

/-- Concrete run: instead, from `demo3`, `"b"` has joined `"a"`'s room `"r"`
with the matching key `"k1"`. -/
def demo5 : WState :=
  (handleFrame (fun _ => false) demo3 "b" (some (.join "r" "k1" none))).1

/-- Discriminator for `welcome` messages (used to state roster facts). -/
def isWelcome : OutMsg → Bool
  | .welcome _ _ _ _ _ => true
  | _ => false

/-- Discriminator for the generic protocol-error notice. -/
def isError : OutMsg → Bool
  | .error _ => true
  | _ => false

/-- Well-formedness of a worker state, proved invariant under `Step`.  The
room whose id is `ex` is exempt from the nonemptiness requirement (used
mid-`joinRoom`, where `getOrCreateRoom` may briefly hold an empty room);
room ids are nonempty strings, so `WFX st ""` exempts nothing. -/
structure WFX (st : WState) (ex : String) : Prop where
  peersNodup : (st.peers.map Peer.id).Nodup
  roomsNodup : (st.rooms.map Prod.fst).Nodup
  roomIdNe : ∀ kr ∈ st.rooms, kr.1 ≠ ""
  membersNodup : ∀ kr ∈ st.rooms, kr.2.members.Nodup
  peerRoom : ∀ p ∈ st.peers, ∀ rid, p.roomId = some rid →
      ∃ room, lookupRoom st.rooms rid = some room ∧ p.id ∈ room.members
  memberPeer : ∀ kr ∈ st.rooms, ∀ mid ∈ kr.2.members,
      ∃ p ∈ st.peers, p.id = mid ∧ p.roomId = some kr.1
  roomNonempty : ∀ kr ∈ st.rooms, kr.1 ≠ ex → kr.2.members ≠ []
  noEmptyRoomId : ∀ p ∈ st.peers, p.roomId ≠ some ""

/-- Full well-formedness: since every room id is nonempty, excluding `""`
excludes no room, so all rooms are nonempty. -/
def WF (st : WState) : Prop := WFX st ""

/-! ## Basic lemmas about the map operations -/

theorem lookupRoom_append_of_none {rs : List (String × Room)} {rid : String}
    (h : lookupRoom rs rid = none) (k : String) (r : Room) :
    lookupRoom (rs ++ [(k, r)]) rid = if k = rid then some r else none := by
  induction rs with
  | nil => simp [lookupRoom]
  | cons kr rest ih =>
    cases kr with
    | mk k0 r0 =>
      rw [lookupRoom] at h
      by_cases hk : k0 = rid
      · rw [if_pos hk] at h; exact absurd h (by simp)
      · rw [if_neg hk] at h
        rw [List.cons_append, lookupRoom, if_neg hk]
        exact ih h

theorem lookupRoom_append_of_some {rs : List (String × Room)} {rid : String} {r0 : Room}
    (h : lookupRoom rs rid = some r0) (l : List (String × Room)) :
    lookupRoom (rs ++ l) rid = some r0 := by
  induction rs with
  | nil => simp [lookupRoom] at h
  | cons kr rest ih =>
    cases kr with
    | mk k0 q0 =>
      rw [lookupRoom] at h
      by_cases hk : k0 = rid
      · rw [if_pos hk] at h
        rw [List.cons_append, lookupRoom, if_pos hk]
        exact h
      · rw [if_neg hk] at h
        rw [List.cons_append, lookupRoom, if_neg hk]
        exact ih h

theorem lookupRoom_updateRoom (rs : List (String × Room)) (rid : String)
    (f : Room → Room) (q : String) :
    lookupRoom (updateRoom rs rid f) q =
      if q = rid then (lookupRoom rs rid).map f else lookupRoom rs q := by
  induction rs with
  | nil => simp [lookupRoom, updateRoom]
  | cons kr rest ih =>
    cases kr with
    | mk k0 r0 =>
      simp only [updateRoom, List.map_cons] at ih ⊢
      by_cases hq : k0 = q
      · subst hq
        by_cases hr : k0 = rid
        · subst hr
          simp [lookupRoom]
        · simp [lookupRoom, hr]
      · by_cases hr : q = rid
        · subst hr
          simp [lookupRoom, hq, ih]
        · simp [lookupRoom, hq, hr, ih]

theorem lookupRoom_eraseRoom (rs : List (String × Room)) (rid q : String) :
    lookupRoom (eraseRoom rs rid) q =
      if q = rid then none else lookupRoom rs q := by
  induction rs with
  | nil => simp [lookupRoom, eraseRoom]
  | cons kr rest ih =>
    cases kr with
    | mk k0 r0 =>
      simp only [eraseRoom, List.filter_cons, ne_eq, decide_not] at ih ⊢
      by_cases hk : k0 = rid
      · subst hk
        by_cases hq : q = k0
        · subst hq
          simp [lookupRoom, ih]
        · have hq2 : ¬k0 = q := fun h => hq h.symm
          simp [lookupRoom, hq, ih, hq2]
      · by_cases hq : q = k0
        · subst hq
          simp [lookupRoom, hk, fun h : q = rid => hk h]
        · have hq2 : ¬k0 = q := fun h => hq h.symm
          simp [lookupRoom, hk, hq2, ih]

theorem eraseRoom_updateRoom (rs : List (String × Room)) (rid : String) (f : Room → Room) :
    eraseRoom (updateRoom rs rid f) rid = eraseRoom rs rid := by
  induction rs with
  | nil => rfl
  | cons kr rest ih =>
    cases kr with
    | mk k0 r0 =>
      simp only [updateRoom, List.map_cons, eraseRoom, List.filter_cons, ne_eq, decide_not] at ih ⊢
      by_cases hk : k0 = rid
      · simp [hk, ih]
      · simp [hk, ih]

theorem keys_updateRoom (rs : List (String × Room)) (rid : String) (f : Room → Room) :
    (updateRoom rs rid f).map Prod.fst = rs.map Prod.fst := by
  induction rs with
  | nil => rfl
  | cons kr rest ih =>
    rw [updateRoom, List.map_cons, List.map_cons, List.map_cons]
    exact congrArg _ ih

theorem mem_updateRoom {rs : List (String × Room)} {rid : String} {f : Room → Room}
    {kr : String × Room} (h : kr ∈ updateRoom rs rid f) :
    (kr.1 ≠ rid ∧ kr ∈ rs) ∨ (kr.1 = rid ∧ ∃ r0, (rid, r0) ∈ rs ∧ kr = (rid, f r0)) := by
  rcases List.mem_map.mp h with ⟨kr0, hmem, heq⟩
  subst heq
  by_cases hk : kr0.1 = rid
  · right
    refine ⟨hk, kr0.2, ?_, ?_⟩
    · rw [← hk]
      exact hmem
    · simp [hk]
  · left
    refine ⟨hk, ?_⟩
    simpa [hk] using hmem

theorem mem_eraseRoom {rs : List (String × Room)} {rid : String} {kr : String × Room}
    (h : kr ∈ eraseRoom rs rid) : kr.1 ≠ rid ∧ kr ∈ rs := by
  have h2 := List.of_mem_filter h
  exact ⟨by simpa using h2, List.mem_of_mem_filter h⟩

theorem lookupRoom_eq_none_iff (rs : List (String × Room)) (rid : String) :
    lookupRoom rs rid = none ↔ rid ∉ rs.map Prod.fst := by
  induction rs with
  | nil => simp [lookupRoom]
  | cons kr rest ih =>
    cases kr with
    | mk k r =>
      by_cases hk : k = rid
      · subst hk
        simp [lookupRoom]
      · rw [lookupRoom, if_neg hk]
        simp only [List.map_cons, List.mem_cons, not_or]
        rw [ih]
        constructor
        · intro h2
          exact ⟨fun he => hk he.symm, h2⟩
        · intro h2
          exact h2.2

theorem lookupRoom_mem {rs : List (String × Room)} {rid : String} {r : Room}
    (h : lookupRoom rs rid = some r) : (rid, r) ∈ rs := by
  induction rs with
  | nil => simp [lookupRoom] at h
  | cons kr rest ih =>
    cases kr with
    | mk k r0 =>
      rw [lookupRoom] at h
      by_cases hk : k = rid
      · subst hk
        simp at h
        simp [h]
      · simp only [if_neg hk] at h
        exact List.mem_cons_of_mem _ (ih h)

theorem findPeer_mem {st : WState} {pid : String} {p : Peer}
    (h : findPeer st pid = some p) : p ∈ st.peers ∧ p.id = pid := by
  refine ⟨List.mem_of_find?_eq_some h, ?_⟩
  have h2 := List.find?_some h
  simpa using h2

theorem findPeer_of_exists {st : WState} {pid : String}
    (h : ∃ p ∈ st.peers, p.id = pid) : ∃ p, findPeer st pid = some p ∧ p.id = pid := by
  have h2 : (st.peers.find? (fun p => p.id == pid)).isSome = true := by
    rw [List.find?_isSome]
    rcases h with ⟨p, hmem, hid⟩
    exact ⟨p, hmem, by simpa using hid⟩
  rcases Option.isSome_iff_exists.mp h2 with ⟨p, hp⟩
  exact ⟨p, hp, (findPeer_mem hp).2⟩

theorem rooms_updatePeer (st : WState) (pid : String) (f : Peer → Peer) :
    (updatePeer st pid f).rooms = st.rooms := rfl

theorem ids_updatePeer (st : WState) (pid : String) (f : Peer → Peer)
    (hf : ∀ p, (f p).id = p.id) :
    (updatePeer st pid f).peers.map Peer.id = st.peers.map Peer.id := by
  rw [updatePeer]
  simp only [List.map_map]
  apply List.map_congr_left
  intro p _
  by_cases hp : p.id = pid
  · simp [hp, hf]
  · simp [hp]

theorem mem_updatePeer {st : WState} {pid : String} {f : Peer → Peer} {q : Peer}
    (h : q ∈ (updatePeer st pid f).peers) :
    (∃ p ∈ st.peers, p.id ≠ pid ∧ q = p) ∨ (∃ p ∈ st.peers, p.id = pid ∧ q = f p) := by
  rcases List.mem_map.mp h with ⟨p, hmem, heq⟩
  by_cases hp : p.id = pid
  · right
    exact ⟨p, hmem, hp, by rw [← heq, if_pos hp]⟩
  · left
    exact ⟨p, hmem, hp, by rw [← heq, if_neg hp]⟩

theorem mem_updatePeer_of_ne {st : WState} {pid : String} {f : Peer → Peer} {p : Peer}
    (hp : p ∈ st.peers) (hne : p.id ≠ pid) : p ∈ (updatePeer st pid f).peers :=
  List.mem_map.mpr ⟨p, hp, by rw [if_neg hne]⟩

theorem find?_update (l : List Peer) (pid : String) (f : Peer → Peer)
    (hf : ∀ p, (f p).id = p.id) (q : String) :
    (l.map (fun p => if p.id = pid then f p else p)).find? (fun p => p.id == q) =
      if q = pid then (l.find? (fun p => p.id == q)).map f
      else l.find? (fun p => p.id == q) := by
  induction l with
  | nil => by_cases hq : q = pid <;> simp [hq]
  | cons p rest ih =>
    rw [List.map_cons]
    by_cases hp : p.id = pid
    · rw [if_pos hp]
      by_cases hq : q = pid
      · subst hq
        rw [List.find?_cons_of_pos _ (by simp [hf, hp]),
          List.find?_cons_of_pos _ (by simp [hp]), if_pos rfl]
        rfl
      · have hne : ¬pid = q := fun h => hq h.symm
        rw [List.find?_cons_of_neg _ (by simp [hf, hp]; exact hne),
          List.find?_cons_of_neg _ (by simp [hp]; exact hne), ih, if_neg hq]
    · rw [if_neg hp]
      by_cases hq : p.id = q
      · have hqp : ¬q = pid := fun h => hp (hq.trans h)
        rw [List.find?_cons_of_pos _ (by simp [hq]),
          List.find?_cons_of_pos _ (by simp [hq]), if_neg hqp]
      · rw [List.find?_cons_of_neg _ (by simp [hq]),
          List.find?_cons_of_neg _ (by simp [hq]), ih]

theorem findPeer_updatePeer (st : WState) (pid : String) (f : Peer → Peer)
    (hf : ∀ p, (f p).id = p.id) (q : String) :
    findPeer (updatePeer st pid f) q =
      if q = pid then (findPeer st q).map f else findPeer st q := by
  rw [findPeer, findPeer, updatePeer]
  exact find?_update st.peers pid f hf q

theorem find?_append_one (l : List Peer) (p0 : Peer) (c : Peer → Bool) :
    (l ++ [p0]).find? c =
      match l.find? c with
      | some p => some p
      | none => if c p0 then some p0 else none := by
  induction l with
  | nil =>
    simp only [List.nil_append, List.find?_nil]
    by_cases hp : c p0 = true
    · rw [List.find?_cons_of_pos _ hp, if_pos hp]
    · rw [List.find?_cons_of_neg _ (by simpa using hp), if_neg hp, List.find?_nil]
  | cons p rest ih =>
    rw [List.cons_append]
    by_cases hp : c p = true
    · rw [List.find?_cons_of_pos _ hp, List.find?_cons_of_pos _ hp]
    · rw [List.find?_cons_of_neg _ (by simpa using hp),
        List.find?_cons_of_neg _ (by simpa using hp), ih]

theorem findPeer_append (st : WState) (p0 : Peer) (q : String) :
    findPeer { st with peers := st.peers ++ [p0] } q =
      match findPeer st q with
      | some p => some p
      | none => if p0.id == q then some p0 else none := by
  rw [findPeer, findPeer]
  exact find?_append_one st.peers p0 _

theorem mem_memberSet (ms : List String) (pid a : String) :
    a ∈ memberSet ms pid ↔ a ∈ ms ∨ a = pid := by
  rw [memberSet]
  by_cases hc : ms.contains pid
  · rw [if_pos hc]
    constructor
    · exact Or.inl
    · rintro (h | h)
      · exact h
      · subst h
        exact List.mem_of_elem_eq_true hc
  · rw [if_neg hc]
    simp

theorem nodup_memberSet (ms : List String) (pid : String) (h : ms.Nodup) :
    (memberSet ms pid).Nodup := by
  rw [memberSet]
  by_cases hc : ms.contains pid
  · rw [if_pos hc]
    exact h
  · rw [if_neg hc]
    rw [List.nodup_append]
    refine ⟨h, List.nodup_singleton pid, ?_⟩
    intro a ha hb
    simp at hb
    subst hb
    exact hc (List.elem_eq_true_of_mem ha)

theorem memberSet_ne_nil (ms : List String) (pid : String) : memberSet ms pid ≠ [] := by
  rw [memberSet]
  by_cases hc : ms.contains pid
  · rw [if_pos hc]
    intro h
    subst h
    simp [List.contains] at hc
  · rw [if_neg hc]
    simp

theorem mem_of_mem_memberSet_ne {ms : List String} {pid a : String}
    (h : a ∈ memberSet ms pid) (hne : a ≠ pid) : a ∈ ms := by
  rcases (mem_memberSet ms pid a).mp h with h2 | h2
  · exact h2
  · exact absurd h2 hne

theorem self_mem_memberSet (ms : List String) (pid : String) : pid ∈ memberSet ms pid :=
  (mem_memberSet ms pid pid).mpr (Or.inr rfl)

/-- `broadcast` as filter-then-map: recipients are the members passing the
exclusion test whose sockets are live, each sent the payload. -/
theorem broadcast_eq (stale : String → Bool) (room : Room) (payload : OutMsg)
    (exceptId : Option String) :
    broadcast stale room payload exceptId =
      (room.members.filter (fun mid => !exceptCheck exceptId mid && !stale mid)).map
        (fun mid => (mid, payload)) := by
  rw [broadcast]
  induction room.members with
  | nil => rfl
  | cons a l ih =>
    rw [List.filterMap_cons, List.filter_cons]
    cases hc : exceptCheck exceptId a with
    | true =>
      simp only [hc, Bool.not_true, Bool.false_and, if_false, Bool.false_eq_true]
      exact ih
    | false =>
      cases hs : stale a with
      | true =>
        simp only [hc, hs, Bool.not_false, Bool.not_true, Bool.true_and, if_false,
          Bool.false_eq_true, if_true]
        exact ih
      | false =>
        simp only [hc, hs, Bool.not_false, Bool.true_and, if_true, List.map_cons,
          Bool.false_eq_true, if_false]
        rw [ih]

theorem mem_broadcast {stale : String → Bool} {room : Room} {payload : OutMsg}
    {exceptId : Option String} {ev : Ev} (h : ev ∈ broadcast stale room payload exceptId) :
    ev.1 ∈ room.members ∧ ev.2 = payload ∧ stale ev.1 = false ∧
      (∀ e, exceptId = some e → e ≠ "" → ev.1 ≠ e) := by
  rw [broadcast_eq] at h
  rcases List.mem_map.mp h with ⟨mid, hmem, heq⟩
  have hf := List.of_mem_filter hmem
  have hm := List.mem_of_mem_filter hmem
  subst heq
  simp only [Bool.and_eq_true, Bool.not_eq_true'] at hf
  refine ⟨hm, rfl, hf.2, ?_⟩
  intro e he hne h2
  subst he
  subst h2
  simp [exceptCheck, hne] at hf

theorem recipients_nodup {stale : String → Bool} {room : Room} {payload : OutMsg}
    {exceptId : Option String} (h : room.members.Nodup) :
    ((broadcast stale room payload exceptId).map Prod.fst).Nodup := by
  rw [broadcast_eq, List.map_map]
  have : (Prod.fst ∘ fun mid => ((mid, payload) : Ev)) = id := rfl
  rw [this, List.map_id]
  exact h.filter _

theorem mem_broadcast_of (stale : String → Bool) (room : Room) (payload : OutMsg)
    {exceptId : Option String} {m : String} (hm : m ∈ room.members)
    (hs : stale m = false)
    (he : ∀ e, exceptId = some e → e ≠ "" → m ≠ e) :
    (m, payload) ∈ broadcast stale room payload exceptId := by
  rw [broadcast_eq]
  refine List.mem_map.mpr ⟨m, ?_, rfl⟩
  apply List.mem_filter.mpr
  refine ⟨hm, ?_⟩
  have hc : exceptCheck exceptId m = false := by
    cases exceptId with
    | none => rfl
    | some e =>
      by_cases hee : e = ""
      · simp [exceptCheck, hee]
      · have := he e rfl hee
        simp [exceptCheck, hee, this]
  rw [hc, hs]
  rfl

theorem peer_unique {st : WState} (hn : (st.peers.map Peer.id).Nodup)
    {p q : Peer} (hp : p ∈ st.peers) (hq : q ∈ st.peers) (h : p.id = q.id) : p = q :=
  List.inj_on_of_nodup_map hn hp hq h

theorem mem_lookupRoom_of_nodup {rs : List (String × Room)} {kr : String × Room}
    (hn : (rs.map Prod.fst).Nodup) (h : kr ∈ rs) : lookupRoom rs kr.1 = some kr.2 := by
  induction rs with
  | nil => simp at h
  | cons hd rest ih =>
    cases hd with
    | mk k r0 =>
      simp only [List.map_cons, List.nodup_cons] at hn
      rcases List.mem_cons.mp h with heq | hmem
      · subst heq
        simp [lookupRoom]
      · have hk : k ≠ kr.1 := by
          intro hkk
          exact hn.1 (hkk ▸ (List.mem_map.mpr ⟨kr, hmem, rfl⟩))
        rw [lookupRoom, if_neg hk]
        exact ih hn.2 hmem

/-! ## Characterization of `leaveRoom` -/

theorem leaveRoom_not_found {st : WState} {pid : String} (stale : String → Bool)
    (h : findPeer st pid = none) : leaveRoom stale st pid = (st, []) := by
  simp only [leaveRoom, h]

theorem leaveRoom_unjoined {st : WState} {pid : String} {peer : Peer}
    (stale : String → Bool) (hfp : findPeer st pid = some peer)
    (hrid : peer.roomId = none) : leaveRoom stale st pid = (st, []) := by
  simp only [leaveRoom, hfp, hrid]

theorem leaveRoom_no_room {st : WState} {pid rid : String} {peer : Peer}
    (stale : String → Bool) (hfp : findPeer st pid = some peer)
    (hrid : peer.roomId = some rid) (hlr : lookupRoom st.rooms rid = none) :
    leaveRoom stale st pid = (st, []) := by
  simp only [leaveRoom, hfp, hrid, hlr]

theorem leaveRoom_joined {st : WState} {pid rid : String} {peer : Peer} {room : Room}
    (stale : String → Bool) (hfp : findPeer st pid = some peer)
    (hrid : peer.roomId = some rid) (hlr : lookupRoom st.rooms rid = some room) :
    leaveRoom stale st pid =
      (updatePeer
        (if (room.members.erase pid).isEmpty then
          { st with rooms := eraseRoom st.rooms rid }
        else
          { st with rooms :=
              updateRoom st.rooms rid (fun _ => { room with members := room.members.erase pid }) })
        pid (fun p => { p with roomId := none }),
       broadcast stale { room with members := room.members.erase pid }
         (.peerLeft pid) (some pid)) := by
  simp only [leaveRoom, hfp, hrid, hlr]
  by_cases he : (room.members.erase pid).isEmpty
  · rw [if_pos he, if_pos he, eraseRoom_updateRoom]
  · rw [if_neg he, if_neg he]

theorem pid_mem_room {st : WState} {ex pid rid : String} {peer : Peer} {room : Room}
    (h : WFX st ex) (hfp : findPeer st pid = some peer)
    (hrid : peer.roomId = some rid) (hlr : lookupRoom st.rooms rid = some room) :
    pid ∈ room.members := by
  rcases h.peerRoom peer (findPeer_mem hfp).1 rid hrid with ⟨room2, hlr2, hmem⟩
  rw [hlr] at hlr2
  cases hlr2
  rw [← (findPeer_mem hfp).2]
  exact hmem

theorem wfx_leave_aux {st : WState} {ex pid rid : String} {peer : Peer} {room : Room}
    (h : WFX st ex) (hfp : findPeer st pid = some peer)
    (hrid : peer.roomId = some rid) (hlr : lookupRoom st.rooms rid = some room) :
    WFX (updatePeer
      (if (room.members.erase pid).isEmpty then
        { st with rooms := eraseRoom st.rooms rid }
      else
        { st with rooms :=
            updateRoom st.rooms rid (fun _ => { room with members := room.members.erase pid }) })
      pid (fun p => { p with roomId := none })) ex := by
  have hpm : peer ∈ st.peers := (findPeer_mem hfp).1
  have hpid : peer.id = pid := (findPeer_mem hfp).2
  have hroommem : (rid, room) ∈ st.rooms := lookupRoom_mem hlr
  have hmemnd : room.members.Nodup := h.membersNodup (rid, room) hroommem
  have hpidmem : pid ∈ room.members := pid_mem_room h hfp hrid hlr
  have hfid : ∀ p : Peer, (({ p with roomId := none } : Peer)).id = p.id := fun _ => rfl
  by_cases he : (room.members.erase pid).isEmpty
  · rw [if_pos he]
    have hnil : room.members.erase pid = [] := List.isEmpty_iff.mp he
    have hsingle : ∀ x ∈ room.members, x = pid := by
      intro x hx
      by_contra hxne
      have hxe : x ∈ room.members.erase pid := hmemnd.mem_erase_iff.mpr ⟨hxne, hx⟩
      rw [hnil] at hxe
      simp at hxe
    constructor
    · rw [ids_updatePeer _ _ _ hfid]
      exact h.peersNodup
    · exact h.roomsNodup.sublist ((List.filter_sublist st.rooms).map Prod.fst)
    · intro kr hkr
      have hkr0 : kr ∈ eraseRoom st.rooms rid := hkr
      exact h.roomIdNe kr (mem_eraseRoom hkr0).2
    · intro kr hkr
      have hkr0 : kr ∈ eraseRoom st.rooms rid := hkr
      exact h.membersNodup kr (mem_eraseRoom hkr0).2
    · intro q hq rid2 hq2
      rcases mem_updatePeer hq with ⟨p, hpmem, hpne, hqp⟩ | ⟨p, hpmem, hpe, hqp⟩
      · subst hqp
        rcases h.peerRoom q hpmem rid2 hq2 with ⟨room2, hlr2, hmem2⟩
        have hne : rid2 ≠ rid := by
          intro hrr
          subst hrr
          rw [hlr] at hlr2
          cases hlr2
          exact hpne (hsingle q.id hmem2)
        refine ⟨room2, ?_, hmem2⟩
        show lookupRoom (eraseRoom st.rooms rid) rid2 = some room2
        rw [lookupRoom_eraseRoom, if_neg hne]
        exact hlr2
      · subst hqp
        simp at hq2
    · intro kr hkr mid hmid
      have hkr0 : kr ∈ eraseRoom st.rooms rid := hkr
      have hkr2 := mem_eraseRoom hkr0
      rcases h.memberPeer kr hkr2.2 mid hmid with ⟨p, hpmem, hpidm, hproom⟩
      have hne : p.id ≠ pid := by
        intro hpp
        have hpe : p = peer := peer_unique h.peersNodup hpmem hpm (hpp.trans hpid.symm)
        subst hpe
        rw [hrid] at hproom
        cases hproom
        exact hkr2.1 rfl
      exact ⟨p, mem_updatePeer_of_ne hpmem hne, hpidm, hproom⟩
    · intro kr hkr
      have hkr0 : kr ∈ eraseRoom st.rooms rid := hkr
      exact fun hex => h.roomNonempty kr (mem_eraseRoom hkr0).2 hex
    · intro q hq
      rcases mem_updatePeer hq with ⟨p, hpmem, _, hqp⟩ | ⟨p, _, _, hqp⟩
      · subst hqp
        exact h.noEmptyRoomId q hpmem
      · subst hqp
        simp
  · rw [if_neg he]
    have hne_nil : room.members.erase pid ≠ [] := by
      intro hn
      rw [List.isEmpty_iff] at he
      exact he hn
    constructor
    · rw [ids_updatePeer _ _ _ hfid]
      exact h.peersNodup
    · show ((updateRoom st.rooms rid
        (fun _ => { room with members := room.members.erase pid })).map Prod.fst).Nodup
      rw [keys_updateRoom]
      exact h.roomsNodup
    · intro kr hkr
      have hkr0 : kr ∈ updateRoom st.rooms rid
        (fun _ => { room with members := room.members.erase pid }) := hkr
      rcases mem_updateRoom hkr0 with ⟨_, hkr2⟩ | ⟨hk1, _, _, hkeq⟩
      · exact h.roomIdNe kr hkr2
      · rw [hkeq]
        exact h.roomIdNe (rid, room) hroommem
    · intro kr hkr
      have hkr0 : kr ∈ updateRoom st.rooms rid
        (fun _ => { room with members := room.members.erase pid }) := hkr
      rcases mem_updateRoom hkr0 with ⟨_, hkr2⟩ | ⟨hk1, r0, hr0, hkeq⟩
      · exact h.membersNodup kr hkr2
      · rw [hkeq]
        exact hmemnd.erase pid
    · intro q hq rid2 hq2
      rcases mem_updatePeer hq with ⟨p, hpmem, hpne, hqp⟩ | ⟨p, hpmem, hpe, hqp⟩
      · subst hqp
        rcases h.peerRoom q hpmem rid2 hq2 with ⟨room2, hlr2, hmem2⟩
        show ∃ r2, lookupRoom (updateRoom st.rooms rid
          (fun _ => { room with members := room.members.erase pid })) rid2 = some r2 ∧
          q.id ∈ r2.members
        rw [lookupRoom_updateRoom]
        by_cases hrr : rid2 = rid
        · subst hrr
          rw [hlr] at hlr2
          cases hlr2
          rw [if_pos rfl, hlr]
          exact ⟨_, rfl, hmemnd.mem_erase_iff.mpr ⟨hpne, hmem2⟩⟩
        · rw [if_neg hrr]
          exact ⟨room2, hlr2, hmem2⟩
      · subst hqp
        simp at hq2
    · intro kr hkr mid hmid
      have hkr0 : kr ∈ updateRoom st.rooms rid
        (fun _ => { room with members := room.members.erase pid }) := hkr
      rcases mem_updateRoom hkr0 with ⟨hk1, hkr2⟩ | ⟨hk1, r0, hr0, hkeq⟩
      · rcases h.memberPeer kr hkr2 mid hmid with ⟨p, hpmem, hpidm, hproom⟩
        have hne : p.id ≠ pid := by
          intro hpp
          have hpe : p = peer := peer_unique h.peersNodup hpmem hpm (hpp.trans hpid.symm)
          subst hpe
          rw [hrid] at hproom
          cases hproom
          exact hk1 rfl
        exact ⟨p, mem_updatePeer_of_ne hpmem hne, hpidm, hproom⟩
      · rw [hkeq] at hmid
        have hmid2 := hmemnd.mem_erase_iff.mp hmid
        rcases h.memberPeer (rid, room) hroommem mid hmid2.2 with ⟨p, hpmem, hpidm, hproom⟩
        have hne : p.id ≠ pid := by
          rw [hpidm]
          exact hmid2.1
        refine ⟨p, mem_updatePeer_of_ne hpmem hne, hpidm, ?_⟩
        rw [hkeq]
        exact hproom
    · intro kr hkr hex
      have hkr0 : kr ∈ updateRoom st.rooms rid
        (fun _ => { room with members := room.members.erase pid }) := hkr
      rcases mem_updateRoom hkr0 with ⟨_, hkr2⟩ | ⟨hk1, r0, hr0, hkeq⟩
      · exact h.roomNonempty kr hkr2 hex
      · rw [hkeq]
        exact hne_nil
    · intro q hq
      rcases mem_updatePeer hq with ⟨p, hpmem, _, hqp⟩ | ⟨p, _, _, hqp⟩
      · subst hqp
        exact h.noEmptyRoomId q hpmem
      · subst hqp
        simp

theorem wfx_leave {st : WState} {ex : String} (stale : String → Bool) (pid : String)
    (h : WFX st ex) : WFX (leaveRoom stale st pid).1 ex := by
  cases hfp : findPeer st pid with
  | none =>
    rw [leaveRoom_not_found stale hfp]
    exact h
  | some peer =>
    cases hrid : peer.roomId with
    | none =>
      rw [leaveRoom_unjoined stale hfp hrid]
      exact h
    | some rid =>
      cases hlr : lookupRoom st.rooms rid with
      | none =>
        rw [leaveRoom_no_room stale hfp hrid hlr]
        exact h
      | some room =>
        rw [leaveRoom_joined stale hfp hrid hlr]
        exact wfx_leave_aux h hfp hrid hlr

/-! ## `relaySignal` -/

theorem relaySignal_state (stale : String → Bool) (st : WState) (pid toId : String)
    (sdp ice : Option String) : (relaySignal stale st pid toId sdp ice).1 = st := by
  cases hfp : findPeer st pid with
  | none => simp [relaySignal, hfp]
  | some peer =>
    cases hrid : peer.roomId with
    | none => simp [relaySignal, hfp, hrid]
    | some rid =>
      cases hlr : lookupRoom st.rooms rid with
      | none => simp [relaySignal, hfp, hrid, hlr]
      | some room =>
        by_cases hc : toId ∈ room.members
        · simp [relaySignal, hfp, hrid, hlr, hc]
        · simp [relaySignal, hfp, hrid, hlr, hc]

theorem relaySignal_unjoined {st : WState} {pid : String} {peer : Peer}
    (stale : String → Bool) (toId : String) (sdp ice : Option String)
    (hfp : findPeer st pid = some peer) (hrid : peer.roomId = none) :
    relaySignal stale st pid toId sdp ice = (st, [], false) := by
  simp [relaySignal, hfp, hrid]

theorem relaySignal_no_target {st : WState} {pid rid : String} {peer : Peer} {room : Room}
    (stale : String → Bool) (toId : String) (sdp ice : Option String)
    (hfp : findPeer st pid = some peer) (hrid : peer.roomId = some rid)
    (hlr : lookupRoom st.rooms rid = some room) (hc : toId ∉ room.members) :
    relaySignal stale st pid toId sdp ice = (st, [], false) := by
  simp [relaySignal, hfp, hrid, hlr, hc]

theorem relaySignal_target {st : WState} {pid rid : String} {peer : Peer} {room : Room}
    (stale : String → Bool) (toId : String) (sdp ice : Option String)
    (hfp : findPeer st pid = some peer) (hrid : peer.roomId = some rid)
    (hlr : lookupRoom st.rooms rid = some room) (hc : toId ∈ room.members) :
    relaySignal stale st pid toId sdp ice =
      (st, (sendTo stale toId (.signal pid sdp ice)).1,
        (sendTo stale toId (.signal pid sdp ice)).2) := by
  simp [relaySignal, hfp, hrid, hlr, hc]

/-! ## New connections -/

theorem wfx_connect {st : WState} {ex : String} (id : String) (name : PeerName)
    (h : WFX st ex) (hfresh : ∀ q ∈ st.peers, q.id ≠ id) :
    WFX { st with peers := st.peers ++ [initPeer id name] } ex := by
  constructor
  · rw [List.map_append]
    rw [List.nodup_append]
    refine ⟨h.peersNodup, by simp [initPeer], ?_⟩
    intro a ha hb
    simp [initPeer] at hb
    rcases List.mem_map.mp ha with ⟨q, hq, hqa⟩
    subst hb
    exact hfresh q hq hqa
  · exact h.roomsNodup
  · exact h.roomIdNe
  · exact h.membersNodup
  · intro p hp rid hrid
    rcases List.mem_append.mp hp with hp2 | hp2
    · exact h.peerRoom p hp2 rid hrid
    · simp at hp2
      subst hp2
      simp [initPeer] at hrid
  · intro kr hkr mid hmid
    rcases h.memberPeer kr hkr mid hmid with ⟨p, hpmem, hpidm, hproom⟩
    exact ⟨p, List.mem_append.mpr (Or.inl hpmem), hpidm, hproom⟩
  · exact h.roomNonempty
  · intro p hp
    rcases List.mem_append.mp hp with hp2 | hp2
    · exact h.noEmptyRoomId p hp2
    · simp at hp2
      subst hp2
      simp [initPeer]

/-! ## Effect of `leaveRoom` on lookups -/

theorem leaveRoom_findPeer {st : WState} {ex pid : String} {peer : Peer}
    (stale : String → Bool) (h : WFX st ex) (hfp : findPeer st pid = some peer) :
    findPeer (leaveRoom stale st pid).1 pid = some { peer with roomId := none } := by
  cases hrid : peer.roomId with
  | none =>
    rw [leaveRoom_unjoined stale hfp hrid]
    rw [show ({ peer with roomId := none } : Peer) = peer by
      cases peer
      simp at hrid
      simp [hrid]]
    exact hfp
  | some rid =>
    rcases h.peerRoom peer (findPeer_mem hfp).1 rid hrid with ⟨room, hlr, _⟩
    rw [leaveRoom_joined stale hfp hrid hlr]
    show findPeer (updatePeer _ pid (fun p => { p with roomId := none })) pid = _
    rw [findPeer_updatePeer _ pid (fun p => { p with roomId := none }) (fun _ => rfl),
      if_pos rfl]
    have hsame : findPeer (if (room.members.erase pid).isEmpty then
        { st with rooms := eraseRoom st.rooms rid }
      else
        { st with rooms :=
            updateRoom st.rooms rid (fun _ => { room with members := room.members.erase pid }) })
        pid = findPeer st pid := by
      by_cases he : (room.members.erase pid).isEmpty
      · rw [if_pos he]
        rfl
      · rw [if_neg he]
        rfl
    rw [hsame, hfp]
    rfl

theorem leaveRoom_lookup_other {st : WState} {pid rid2 : String}
    (stale : String → Bool)
    (hq : ∀ peer, findPeer st pid = some peer → peer.roomId ≠ some rid2) :
    lookupRoom (leaveRoom stale st pid).1.rooms rid2 = lookupRoom st.rooms rid2 := by
  cases hfp : findPeer st pid with
  | none =>
    rw [leaveRoom_not_found stale hfp]
  | some peer =>
    cases hrid : peer.roomId with
    | none =>
      rw [leaveRoom_unjoined stale hfp hrid]
    | some rid =>
      cases hlr : lookupRoom st.rooms rid with
      | none =>
        rw [leaveRoom_no_room stale hfp hrid hlr]
      | some room =>
        have hne : rid2 ≠ rid := by
          intro hrr
          exact hq peer hfp (by rw [hrid, hrr])
        rw [leaveRoom_joined stale hfp hrid hlr]
        by_cases he : (room.members.erase pid).isEmpty
        · rw [if_pos he]
          show lookupRoom (eraseRoom st.rooms rid) rid2 = _
          rw [lookupRoom_eraseRoom, if_neg hne]
        · rw [if_neg he]
          show lookupRoom (updateRoom st.rooms rid
            (fun _ => { room with members := room.members.erase pid })) rid2 = _
          rw [lookupRoom_updateRoom, if_neg hne]

/-! ## `joinRoom`: invariant pieces -/

theorem wfx_keyUpdate {st : WState} {ex : String} (rid k : String) (h : WFX st ex) :
    WFX { st with rooms := updateRoom st.rooms rid (fun r => { r with keyHash := k }) } ex := by
  constructor
  · exact h.peersNodup
  · show ((updateRoom st.rooms rid (fun r => { r with keyHash := k })).map Prod.fst).Nodup
    rw [keys_updateRoom]
    exact h.roomsNodup
  · intro kr hkr
    have hkr0 : kr ∈ updateRoom st.rooms rid (fun r => { r with keyHash := k }) := hkr
    rcases mem_updateRoom hkr0 with ⟨_, hkr2⟩ | ⟨hk1, r0, hr0, hkeq⟩
    · exact h.roomIdNe kr hkr2
    · rw [hkeq]
      exact h.roomIdNe (rid, r0) hr0
  · intro kr hkr
    have hkr0 : kr ∈ updateRoom st.rooms rid (fun r => { r with keyHash := k }) := hkr
    rcases mem_updateRoom hkr0 with ⟨_, hkr2⟩ | ⟨hk1, r0, hr0, hkeq⟩
    · exact h.membersNodup kr hkr2
    · rw [hkeq]
      exact h.membersNodup (rid, r0) hr0
  · intro p hp rid2 hrid2
    rcases h.peerRoom p hp rid2 hrid2 with ⟨room2, hlr2, hmem2⟩
    show ∃ room, lookupRoom (updateRoom st.rooms rid (fun r => { r with keyHash := k })) rid2 =
      some room ∧ p.id ∈ room.members
    rw [lookupRoom_updateRoom]
    by_cases hrr : rid2 = rid
    · subst hrr
      rw [if_pos rfl, hlr2]
      exact ⟨_, rfl, hmem2⟩
    · rw [if_neg hrr]
      exact ⟨room2, hlr2, hmem2⟩
  · intro kr hkr mid hmid
    have hkr0 : kr ∈ updateRoom st.rooms rid (fun r => { r with keyHash := k }) := hkr
    rcases mem_updateRoom hkr0 with ⟨_, hkr2⟩ | ⟨hk1, r0, hr0, hkeq⟩
    · exact h.memberPeer kr hkr2 mid hmid
    · rw [hkeq] at hmid
      rcases h.memberPeer (rid, r0) hr0 mid hmid with ⟨p, hpmem, hpidm, hproom⟩
      refine ⟨p, hpmem, hpidm, ?_⟩
      rw [hkeq]
      exact hproom
  · intro kr hkr hex
    have hkr0 : kr ∈ updateRoom st.rooms rid (fun r => { r with keyHash := k }) := hkr
    rcases mem_updateRoom hkr0 with ⟨_, hkr2⟩ | ⟨hk1, r0, hr0, hkeq⟩
    · exact h.roomNonempty kr hkr2 hex
    · rw [hkeq]
      exact h.roomNonempty (rid, r0) hr0 (by rw [hkeq] at hex; exact hex)
  · exact h.noEmptyRoomId

theorem wfx_append_room {st : WState} {ex : String} (k : String) (h : WFX st ex)
    (hlr : lookupRoom st.rooms ex = none) (hex : ex ≠ "") :
    WFX { st with rooms := st.rooms ++ [(ex, ⟨k, []⟩)] } ex := by
  constructor
  · exact h.peersNodup
  · show ((st.rooms ++ [(ex, (⟨k, []⟩ : Room))]).map Prod.fst).Nodup
    rw [List.map_append]
    rw [List.nodup_append]
    refine ⟨h.roomsNodup, by simp, ?_⟩
    intro a ha hb
    simp at hb
    subst hb
    exact (lookupRoom_eq_none_iff _ _).mp hlr ha
  · intro kr hkr
    rcases List.mem_append.mp hkr with hkr2 | hkr2
    · exact h.roomIdNe kr hkr2
    · simp at hkr2
      rw [hkr2]
      exact hex
  · intro kr hkr
    rcases List.mem_append.mp hkr with hkr2 | hkr2
    · exact h.membersNodup kr hkr2
    · simp at hkr2
      rw [hkr2]
      exact List.nodup_nil
  · intro p hp rid2 hrid2
    rcases h.peerRoom p hp rid2 hrid2 with ⟨room2, hlr2, hmem2⟩
    exact ⟨room2, lookupRoom_append_of_some hlr2 _, hmem2⟩
  · intro kr hkr mid hmid
    rcases List.mem_append.mp hkr with hkr2 | hkr2
    · exact h.memberPeer kr hkr2 mid hmid
    · simp at hkr2
      rw [hkr2] at hmid
      simp at hmid
  · intro kr hkr hkex
    rcases List.mem_append.mp hkr with hkr2 | hkr2
    · exact h.roomNonempty kr hkr2 hkex
    · simp at hkr2
      exact absurd (by rw [hkr2]) hkex
  · exact h.noEmptyRoomId

theorem wfx_insert {stJ : WState} {pid rid : String} {peerL : Peer} {roomT : Room}
    (k : String) (rtc : Option Bool)
    (h : WFX stJ rid) (hfpJ : findPeer stJ pid = some peerL)
    (hrT : lookupRoom stJ.rooms rid = some roomT)
    (hpr : peerL.roomId = none ∨ peerL.roomId = some rid) (hrne : rid ≠ "") :
    WF { peers := (updatePeer stJ pid (fun p => { p with roomId := some rid, roomKeyHash := k, rtcSupported := rtc != some false })).peers,
         rooms := updateRoom stJ.rooms rid (fun r => { r with members := memberSet r.members pid }) } := by
  have hpm : peerL ∈ stJ.peers := (findPeer_mem hfpJ).1
  have hpid : peerL.id = pid := (findPeer_mem hfpJ).2
  have hroommem : (rid, roomT) ∈ stJ.rooms := lookupRoom_mem hrT
  have hfid : ∀ p : Peer, (({ p with roomId := some rid, roomKeyHash := k, rtcSupported := rtc != some false } : Peer)).id = p.id := fun _ => rfl
  constructor
  · rw [ids_updatePeer _ _ _ hfid]
    exact h.peersNodup
  · show ((updateRoom stJ.rooms rid
      (fun r => { r with members := memberSet r.members pid })).map Prod.fst).Nodup
    rw [keys_updateRoom]
    exact h.roomsNodup
  · intro kr hkr
    have hkr0 : kr ∈ updateRoom stJ.rooms rid (fun r => { r with members := memberSet r.members pid }) := hkr
    rcases mem_updateRoom hkr0 with ⟨_, hkr2⟩ | ⟨hk1, r0, hr0, hkeq⟩
    · exact h.roomIdNe kr hkr2
    · rw [hkeq]
      exact hrne
  · intro kr hkr
    have hkr0 : kr ∈ updateRoom stJ.rooms rid (fun r => { r with members := memberSet r.members pid }) := hkr
    rcases mem_updateRoom hkr0 with ⟨_, hkr2⟩ | ⟨hk1, r0, hr0, hkeq⟩
    · exact h.membersNodup kr hkr2
    · rw [hkeq]
      exact nodup_memberSet _ _ (h.membersNodup (rid, r0) hr0)
  · intro q hq rid2 hq2
    have hq0 : q ∈ (updatePeer stJ pid (fun p => { p with roomId := some rid, roomKeyHash := k, rtcSupported := rtc != some false })).peers := hq
    rcases mem_updatePeer hq0 with ⟨p, hpmem, hpne, hqp⟩ | ⟨p, hpmem, hpe, hqp⟩
    · subst hqp
      rcases h.peerRoom q hpmem rid2 hq2 with ⟨room2, hlr2, hmem2⟩
      show ∃ r2, lookupRoom (updateRoom stJ.rooms rid
        (fun r => { r with members := memberSet r.members pid })) rid2 = some r2 ∧
        q.id ∈ r2.members
      rw [lookupRoom_updateRoom]
      by_cases hrr : rid2 = rid
      · subst hrr
        rw [hrT] at hlr2
        cases hlr2
        rw [if_pos rfl, hrT]
        exact ⟨_, rfl, (mem_memberSet _ _ _).mpr (Or.inl hmem2)⟩
      · rw [if_neg hrr]
        exact ⟨room2, hlr2, hmem2⟩
    · subst hqp
      simp only [Option.some.injEq] at hq2
      show ∃ r2, lookupRoom (updateRoom stJ.rooms rid
        (fun r => { r with members := memberSet r.members pid })) rid2 = some r2 ∧
        p.id ∈ r2.members
      rw [← hq2, lookupRoom_updateRoom, if_pos rfl, hrT]
      refine ⟨_, rfl, ?_⟩
      rw [hpe]
      exact self_mem_memberSet _ _
  · intro kr hkr mid hmid
    have hkr0 : kr ∈ updateRoom stJ.rooms rid (fun r => { r with members := memberSet r.members pid }) := hkr
    rcases mem_updateRoom hkr0 with ⟨hk1, hkr2⟩ | ⟨hk1, r0, hr0, hkeq⟩
    · rcases h.memberPeer kr hkr2 mid hmid with ⟨p, hpmem, hpidm, hproom⟩
      have hne : p.id ≠ pid := by
        intro hpp
        have hpe : p = peerL := peer_unique h.peersNodup hpmem hpm (hpp.trans hpid.symm)
        subst hpe
        rcases hpr with hp1 | hp1
        · rw [hp1] at hproom
          cases hproom
        · rw [hp1] at hproom
          cases hproom
          exact hk1 rfl
      exact ⟨p, mem_updatePeer_of_ne hpmem hne, hpidm, hproom⟩
    · have hr0T : r0 = roomT := by
        have hl0 : lookupRoom stJ.rooms rid = some r0 :=
          mem_lookupRoom_of_nodup h.roomsNodup hr0
        rw [hrT] at hl0
        cases hl0
        rfl
      subst hr0T
      rw [hkeq] at hmid
      by_cases hmp : mid = pid
      · subst hmp
        refine ⟨{ peerL with roomId := some rid, roomKeyHash := k, rtcSupported := rtc != some false }, ?_, hpid, ?_⟩
        · exact List.mem_map.mpr ⟨peerL, hpm, by rw [if_pos hpid]⟩
        · rw [hkeq]
      · have hmm : mid ∈ r0.members := mem_of_mem_memberSet_ne hmid hmp
        rcases h.memberPeer (rid, r0) hroommem mid hmm with ⟨p, hpmem, hpidm, hproom⟩
        have hne : p.id ≠ pid := by
          rw [hpidm]
          exact hmp
        refine ⟨p, mem_updatePeer_of_ne hpmem hne, hpidm, ?_⟩
        rw [hkeq]
        exact hproom
  · intro kr hkr hkex
    have hkr0 : kr ∈ updateRoom stJ.rooms rid (fun r => { r with members := memberSet r.members pid }) := hkr
    rcases mem_updateRoom hkr0 with ⟨hk1, hkr2⟩ | ⟨hk1, r0, hr0, hkeq⟩
    · exact h.roomNonempty kr hkr2 hk1
    · rw [hkeq]
      exact memberSet_ne_nil _ _
  · intro q hq
    have hq0 : q ∈ (updatePeer stJ pid (fun p => { p with roomId := some rid, roomKeyHash := k, rtcSupported := rtc != some false })).peers := hq
    rcases mem_updatePeer hq0 with ⟨p, hpmem, _, hqp⟩ | ⟨p, _, _, hqp⟩
    · subst hqp
      exact h.noEmptyRoomId q hpmem
    · subst hqp
      simp only [ne_eq, Option.some.injEq]
      exact hrne

/-! ## `joinRoom`: characterization and invariant preservation -/

theorem getOrCreateRoom_some {st : WState} {roomId : String} {r : Room} (k : String)
    (hlr : lookupRoom st.rooms roomId = some r) : getOrCreateRoom st roomId k = (st, r) := by
  simp [getOrCreateRoom, hlr]

theorem getOrCreateRoom_none {st : WState} {roomId : String} (k : String)
    (hlr : lookupRoom st.rooms roomId = none) :
    getOrCreateRoom st roomId k =
      ({ st with rooms := st.rooms ++ [(roomId, ⟨k, []⟩)] }, ⟨k, []⟩) := by
  simp [getOrCreateRoom, hlr]

theorem wfx_of_wf {st : WState} (h : WF st) (ex : String) : WFX st ex := by
  constructor
  · exact h.peersNodup
  · exact h.roomsNodup
  · exact h.roomIdNe
  · exact h.membersNodup
  · exact h.peerRoom
  · exact h.memberPeer
  · intro kr hkr _
    exact h.roomNonempty kr hkr (h.roomIdNe kr hkr)
  · exact h.noEmptyRoomId

theorem joinRoom_unfold {stale : String → Bool} {st st1 st2 stp : WState}
    {pid roomId0 k : String} {rtc : Option Bool} {peer : Peer} {room : Room}
    {evs1 : List Ev}
    (hne : jsTrim roomId0 ≠ "")
    (hfp : findPeer st pid = some peer)
    (hgoc : getOrCreateRoom st (jsTrim roomId0) k = (st1, room))
    (hnomis : ¬(room.keyHash ≠ "" ∧ k ≠ room.keyHash))
    (hst2 : (if room.keyHash = "" ∧ k ≠ "" then
        { st1 with rooms := updateRoom st1.rooms (jsTrim roomId0) (fun r => { r with keyHash := k }) }
      else st1) = st2)
    (hleft : (if (match peer.roomId with
        | some old => decide (old ≠ "") && decide (old ≠ jsTrim roomId0)
        | none => false) then leaveRoom stale st2 pid else (st2, [])) = (stp, evs1)) :
    joinRoom stale st pid roomId0 k rtc =
      (match lookupRoom (updateRoom stp.rooms (jsTrim roomId0)
          (fun r => { r with members := memberSet r.members pid })) (jsTrim roomId0) with
      | none =>
        ({ peers := (updatePeer stp pid (fun p => { p with roomId := some (jsTrim roomId0), roomKeyHash := k, rtcSupported := rtc != some false })).peers,
           rooms := updateRoom stp.rooms (jsTrim roomId0)
             (fun r => { r with members := memberSet r.members pid }) }, evs1, false)
      | some roomF =>
        let st5 : WState :=
          { peers := (updatePeer stp pid (fun p => { p with roomId := some (jsTrim roomId0), roomKeyHash := k, rtcSupported := rtc != some false })).peers,
            rooms := updateRoom stp.rooms (jsTrim roomId0)
              (fun r => { r with members := memberSet r.members pid }) }
        let roster := ((roomF.members.filterMap (fun mid => findPeer st5 mid)).filter
          (fun p => p.id ≠ pid)).map asPeerInfo
        let w := sendTo stale pid (.welcome pid (jsTrim roomId0) roster
          peer.name.displayName peer.name.deviceName)
        if w.2 then (st5, evs1 ++ w.1, true)
        else
          let evs3 := broadcast stale roomF
            (.peerJoined (asPeerInfo { peer with roomId := some (jsTrim roomId0), roomKeyHash := k, rtcSupported := rtc != some false })) (some pid)
          (st5, evs1 ++ w.1 ++ evs3, false)) := by
  simp only [joinRoom, if_neg hne, hfp, hgoc, if_neg hnomis, hst2, hleft, rooms_updatePeer]

theorem joinRoom_state_success {stale : String → Bool} {st st1 st2 stp : WState}
    {pid roomId0 k : String} (rtc : Option Bool) {peer : Peer} {room roomT : Room}
    {evs1 : List Ev}
    (hne : jsTrim roomId0 ≠ "")
    (hfp : findPeer st pid = some peer)
    (hgoc : getOrCreateRoom st (jsTrim roomId0) k = (st1, room))
    (hnomis : ¬(room.keyHash ≠ "" ∧ k ≠ room.keyHash))
    (hst2 : (if room.keyHash = "" ∧ k ≠ "" then
        { st1 with rooms := updateRoom st1.rooms (jsTrim roomId0) (fun r => { r with keyHash := k }) }
      else st1) = st2)
    (hleft : (if (match peer.roomId with
        | some old => decide (old ≠ "") && decide (old ≠ jsTrim roomId0)
        | none => false) then leaveRoom stale st2 pid else (st2, [])) = (stp, evs1))
    (hlrp : lookupRoom stp.rooms (jsTrim roomId0) = some roomT) :
    (joinRoom stale st pid roomId0 k rtc).1 =
      { peers := (updatePeer stp pid (fun p => { p with roomId := some (jsTrim roomId0), roomKeyHash := k, rtcSupported := rtc != some false })).peers,
        rooms := updateRoom stp.rooms (jsTrim roomId0)
          (fun r => { r with members := memberSet r.members pid }) } := by
  rw [joinRoom_unfold hne hfp hgoc hnomis hst2 hleft]
  rw [lookupRoom_updateRoom, if_pos rfl, hlrp, Option.map_some']
  split
  · rfl
  · dsimp only
    split
    · rfl
    · rfl

theorem join_leave_step {st2 : WState} {pid rid : String} {peer : Peer} {room2 : Room}
    (stale : String → Bool)
    (hW2 : WFX st2 rid) (hfp2 : findPeer st2 pid = some peer)
    (hlr2 : lookupRoom st2.rooms rid = some room2) :
    ∃ peerL,
      findPeer (if (match peer.roomId with
          | some old => decide (old ≠ "") && decide (old ≠ rid)
          | none => false) then leaveRoom stale st2 pid else (st2, [])).1 pid = some peerL ∧
      lookupRoom (if (match peer.roomId with
          | some old => decide (old ≠ "") && decide (old ≠ rid)
          | none => false) then leaveRoom stale st2 pid else (st2, [])).1.rooms rid =
        some room2 ∧
      (peerL.roomId = none ∨ peerL.roomId = some rid) ∧
      WFX (if (match peer.roomId with
          | some old => decide (old ≠ "") && decide (old ≠ rid)
          | none => false) then leaveRoom stale st2 pid else (st2, [])).1 rid := by
  cases hold : peer.roomId with
  | none =>
    rw [if_neg (by simp [hold])]
    exact ⟨peer, hfp2, hlr2, Or.inl hold, hW2⟩
  | some old =>
    by_cases holdr : old = rid
    · rw [if_neg (by simp [hold, holdr])]
      refine ⟨peer, hfp2, hlr2, Or.inr ?_, hW2⟩
      rw [hold, holdr]
    · have holdne : old ≠ "" := by
        intro h0
        exact hW2.noEmptyRoomId peer (findPeer_mem hfp2).1 (by rw [hold, h0])
      rw [if_pos (by simp [hold, holdne, holdr])]
      refine ⟨{ peer with roomId := none }, leaveRoom_findPeer stale hW2 hfp2, ?_,
        Or.inl rfl, wfx_leave stale pid hW2⟩
      rw [leaveRoom_lookup_other stale]
      · exact hlr2
      · intro p2 hp2
        rw [hfp2] at hp2
        cases hp2
        rw [hold]
        intro hcc
        cases hcc
        exact holdr rfl

theorem join_adopt_step {st : WState} {pid rid k : String} {peer : Peer} {room : Room}
    (hW : WFX st rid) (hfp : findPeer st pid = some peer)
    (hlr : lookupRoom st.rooms rid = some room) :
    ∃ room2,
      findPeer (if room.keyHash = "" ∧ k ≠ "" then
          { st with rooms := updateRoom st.rooms rid (fun r => { r with keyHash := k }) }
        else st) pid = some peer ∧
      lookupRoom (if room.keyHash = "" ∧ k ≠ "" then
          { st with rooms := updateRoom st.rooms rid (fun r => { r with keyHash := k }) }
        else st).rooms rid = some room2 ∧
      WFX (if room.keyHash = "" ∧ k ≠ "" then
          { st with rooms := updateRoom st.rooms rid (fun r => { r with keyHash := k }) }
        else st) rid ∧
      room2.members = room.members ∧
      room2.keyHash = (if room.keyHash = "" ∧ k ≠ "" then k else room.keyHash) := by
  by_cases had : room.keyHash = "" ∧ k ≠ ""
  · rw [if_pos had, if_pos had]
    refine ⟨{ room with keyHash := k }, hfp, ?_, wfx_keyUpdate rid k hW, rfl, rfl⟩
    show lookupRoom (updateRoom st.rooms rid (fun r => { r with keyHash := k })) rid = _
    rw [lookupRoom_updateRoom, if_pos rfl, hlr]
    rfl
  · rw [if_neg had, if_neg had]
    exact ⟨room, hfp, hlr, hW, rfl, rfl⟩

theorem wf_join {st : WState} (stale : String → Bool) (pid roomId0 k : String)
    (rtc : Option Bool) (h : WF st) : WF (joinRoom stale st pid roomId0 k rtc).1 := by
  by_cases hne : jsTrim roomId0 = ""
  · simp only [joinRoom, if_pos hne]
    exact h
  · cases hfp : findPeer st pid with
    | none =>
      simp only [joinRoom, if_neg hne, hfp]
      exact h
    | some peer =>
      cases hlr : lookupRoom st.rooms (jsTrim roomId0) with
      | some room =>
        have hgoc := getOrCreateRoom_some (k := k) hlr
        by_cases hmis : room.keyHash ≠ "" ∧ k ≠ room.keyHash
        · simp only [joinRoom, if_neg hne, hfp, hgoc, if_pos hmis]
          exact h
        · rcases join_adopt_step (k := k) (wfx_of_wf h _) hfp hlr with
            ⟨room2, hfp2, hlr2, hW2, _, _⟩
          rcases join_leave_step stale hW2 hfp2 hlr2 with ⟨peerL, hfpL, hlrL, hprL, hWL⟩
          rw [joinRoom_state_success rtc hne hfp hgoc hmis rfl rfl hlrL]
          exact wfx_insert k rtc hWL hfpL hlrL hprL hne
      | none =>
        have hgoc := getOrCreateRoom_none (k := k) hlr
        have hmis : ¬((⟨k, []⟩ : Room).keyHash ≠ "" ∧ k ≠ (⟨k, []⟩ : Room).keyHash) := by
          rintro ⟨h1, h2⟩
          exact h2 rfl
        have hfp1 : findPeer { st with rooms := st.rooms ++ [(jsTrim roomId0, ⟨k, []⟩)] }
            pid = some peer := hfp
        have hlr1 : lookupRoom ({ st with
            rooms := st.rooms ++ [(jsTrim roomId0, ⟨k, []⟩)] } : WState).rooms
            (jsTrim roomId0) = some ⟨k, []⟩ := by
          show lookupRoom (st.rooms ++ [(jsTrim roomId0, ⟨k, []⟩)]) (jsTrim roomId0) = _
          rw [lookupRoom_append_of_none hlr, if_pos rfl]
        have hW1 : WFX { st with rooms := st.rooms ++ [(jsTrim roomId0, ⟨k, []⟩)] }
            (jsTrim roomId0) := wfx_append_room k (wfx_of_wf h _) hlr hne
        rcases join_adopt_step (k := k) hW1 hfp1 hlr1 with ⟨room2, hfp2, hlr2, hW2, _, _⟩
        rcases join_leave_step stale hW2 hfp2 hlr2 with ⟨peerL, hfpL, hlrL, hprL, hWL⟩
        rw [joinRoom_state_success rtc hne hfp hgoc hmis rfl rfl hlrL]
        exact wfx_insert k rtc hWL hfpL hlrL hprL hne

theorem joinRoom_mismatch {st : WState} {pid roomId0 k : String} {peer : Peer} {room : Room}
    (stale : String → Bool) (rtc : Option Bool)
    (hne : jsTrim roomId0 ≠ "") (hfp : findPeer st pid = some peer)
    (hlr : lookupRoom st.rooms (jsTrim roomId0) = some room)
    (hmk : room.keyHash ≠ "") (hkk : k ≠ room.keyHash) :
    joinRoom stale st pid roomId0 k rtc =
      (st, (sendTo stale pid .roomKeyMismatch).1, (sendTo stale pid .roomKeyMismatch).2) := by
  simp only [joinRoom, if_neg hne, hfp, getOrCreateRoom_some k hlr,
    if_pos (And.intro hmk hkk)]

theorem leaveRoom_events_payload (stale : String → Bool) (st : WState) (pid : String) :
    ∀ ev ∈ (leaveRoom stale st pid).2, ev.2 = .peerLeft pid := by
  cases hfp : findPeer st pid with
  | none =>
    rw [leaveRoom_not_found stale hfp]
    simp
  | some peer =>
    cases hrid : peer.roomId with
    | none =>
      rw [leaveRoom_unjoined stale hfp hrid]
      simp
    | some rid =>
      cases hlr : lookupRoom st.rooms rid with
      | none =>
        rw [leaveRoom_no_room stale hfp hrid hlr]
        simp
      | some room =>
        rw [leaveRoom_joined stale hfp hrid hlr]
        intro ev hev
        exact (mem_broadcast hev).2.1

theorem erase_eq_nil_iff {l : List String} {a : String} (hn : l.Nodup) (hm : a ∈ l) :
    l.erase a = [] ↔ l = [a] := by
  constructor
  · intro h
    have hlen : l.length = 1 := by
      have h2 := List.length_erase_of_mem hm
      rw [h] at h2
      have h3 : l.length ≠ 0 := by
        intro h0
        rw [List.length_eq_zero] at h0
        subst h0
        simp at hm
      simp only [List.length_nil] at h2
      omega
    rcases List.length_eq_one.mp hlen with ⟨x, hx⟩
    subst hx
    simp at hm
    rw [hm]
  · intro h
    subst h
    simp [List.erase_cons]

theorem sendTo_mem {stale : String → Bool} {pid : String} {m : OutMsg} :
    ∀ ev ∈ (sendTo stale pid m).1, ev = (pid, m) := by
  intro ev hev
  rw [sendTo] at hev
  by_cases hs : stale pid = true
  · rw [if_pos hs] at hev
    simp at hev
  · rw [if_neg hs] at hev
    simpa using hev

theorem joinRoom_no_throw {stale : String → Bool} (hstale : ∀ x, stale x = false)
    (st : WState) (pid roomId0 k : String) (rtc : Option Bool) :
    (joinRoom stale st pid roomId0 k rtc).2.2 = false := by
  by_cases hne : jsTrim roomId0 = ""
  · simp [joinRoom, hne]
  · cases hfp : findPeer st pid with
    | none => simp [joinRoom, hne, hfp]
    | some peer =>
      cases hlr : lookupRoom st.rooms (jsTrim roomId0) with
      | some room =>
        by_cases hmis : room.keyHash ≠ "" ∧ k ≠ room.keyHash
        · rw [joinRoom_mismatch stale rtc hne hfp hlr hmis.1 hmis.2]
          simp [sendTo, hstale]
        · rw [joinRoom_unfold hne hfp (getOrCreateRoom_some k hlr) hmis rfl rfl]
          split
          · rfl
          · dsimp only
            rw [if_neg (by simp [sendTo, hstale])]
      | none =>
        have hmis : ¬((⟨k, []⟩ : Room).keyHash ≠ "" ∧ k ≠ (⟨k, []⟩ : Room).keyHash) := by
          rintro ⟨h1, h2⟩
          exact h2 rfl
        rw [joinRoom_unfold hne hfp (getOrCreateRoom_none k hlr) hmis rfl rfl]
        split
        · rfl
        · dsimp only
          rw [if_neg (by simp [sendTo, hstale])]

theorem leave_ite_events (stale : String → Bool) (s : WState) (pid : String) (c : Prop)
    [Decidable c] :
    ∀ ev ∈ (if c then leaveRoom stale s pid else (s, [])).2, ev.2 = .peerLeft pid := by
  by_cases hc : c
  · rw [if_pos hc]
    exact leaveRoom_events_payload stale s pid
  · rw [if_neg hc]
    simp

theorem join_parts (stale : String → Bool) {st st1 : WState} {peer : Peer} {room : Room}
    (pid roomId0 k : String)
    (_hgoc : getOrCreateRoom st (jsTrim roomId0) k = (st1, room)) :
    ∃ st2 stp evs1,
      ((if room.keyHash = "" ∧ k ≠ "" then
          { st1 with rooms := updateRoom st1.rooms (jsTrim roomId0) (fun r => { r with keyHash := k }) }
        else st1) = st2) ∧
      ((if (match peer.roomId with
          | some old => decide (old ≠ "") && decide (old ≠ jsTrim roomId0)
          | none => false) then leaveRoom stale st2 pid else (st2, [])) = (stp, evs1)) ∧
      (∀ ev ∈ evs1, ev.2 = .peerLeft pid) := by
  refine ⟨_, _, _, rfl, rfl, ?_⟩
  exact leave_ite_events stale _ pid _

theorem joinRoom_no_error (stale : String → Bool) (st : WState) (pid roomId0 k : String)
    (rtc : Option Bool) :
    ∀ ev ∈ (joinRoom stale st pid roomId0 k rtc).2.1, isError ev.2 = false := by
  by_cases hne : jsTrim roomId0 = ""
  · simp [joinRoom, hne]
  · cases hfp : findPeer st pid with
    | none => simp [joinRoom, hne, hfp]
    | some peer =>
      cases hlr : lookupRoom st.rooms (jsTrim roomId0) with
      | some room =>
        by_cases hmis : room.keyHash ≠ "" ∧ k ≠ room.keyHash
        · rw [joinRoom_mismatch stale rtc hne hfp hlr hmis.1 hmis.2]
          intro ev hev
          rw [sendTo_mem ev hev]
          rfl
        · rcases @join_parts stale st st peer room pid roomId0 k (getOrCreateRoom_some k hlr)
            with ⟨st2, stp, evs1, hst2, hleft, hevs1⟩
          rw [joinRoom_unfold hne hfp (getOrCreateRoom_some k hlr) hmis hst2 hleft]
          split
          · intro ev hev
            rw [hevs1 ev hev]
            rfl
          · dsimp only
            split
            · intro ev hev
              rcases List.mem_append.mp hev with h1 | h2
              · rw [hevs1 ev h1]
                rfl
              · rw [sendTo_mem ev h2]
                rfl
            · intro ev hev
              rcases List.mem_append.mp hev with h12 | h3
              · rcases List.mem_append.mp h12 with h1 | h2
                · rw [hevs1 ev h1]
                  rfl
                · rw [sendTo_mem ev h2]
                  rfl
              · rw [(mem_broadcast h3).2.1]
                rfl
      | none =>
        have hmis : ¬((⟨k, []⟩ : Room).keyHash ≠ "" ∧ k ≠ (⟨k, []⟩ : Room).keyHash) := by
          rintro ⟨h1, h2⟩
          exact h2 rfl
        rcases @join_parts stale st { st with rooms := st.rooms ++ [(jsTrim roomId0, ⟨k, []⟩)] } peer ⟨k, []⟩ pid roomId0 k (getOrCreateRoom_none k hlr)
          with ⟨st2, stp, evs1, hst2, hleft, hevs1⟩
        rw [joinRoom_unfold hne hfp (getOrCreateRoom_none k hlr) hmis hst2 hleft]
        split
        · intro ev hev
          rw [hevs1 ev hev]
          rfl
        · dsimp only
          split
          · intro ev hev
            rcases List.mem_append.mp hev with h1 | h2
            · rw [hevs1 ev h1]
              rfl
            · rw [sendTo_mem ev h2]
              rfl
          · intro ev hev
            rcases List.mem_append.mp hev with h12 | h3
            · rcases List.mem_append.mp h12 with h1 | h2
              · rw [hevs1 ev h1]
                rfl
              · rw [sendTo_mem ev h2]
                rfl
            · rw [(mem_broadcast h3).2.1]
              rfl

theorem relaySignal_no_throw {stale : String → Bool} (hstale : ∀ x, stale x = false)
    (st : WState) (pid toId : String) (sdp ice : Option String) :
    (relaySignal stale st pid toId sdp ice).2.2 = false := by
  cases hfp : findPeer st pid with
  | none => simp [relaySignal, hfp]
  | some peer =>
    cases hrid : peer.roomId with
    | none => simp [relaySignal, hfp, hrid]
    | some rid =>
      cases hlr : lookupRoom st.rooms rid with
      | none => simp [relaySignal, hfp, hrid, hlr]
      | some room =>
        by_cases hc : toId ∈ room.members
        · rw [relaySignal_target stale toId sdp ice hfp hrid hlr hc]
          simp [sendTo, hstale]
        · rw [relaySignal_no_target stale toId sdp ice hfp hrid hlr hc]

theorem relaySignal_no_error (stale : String → Bool) (st : WState) (pid toId : String)
    (sdp ice : Option String) :
    ∀ ev ∈ (relaySignal stale st pid toId sdp ice).2.1, isError ev.2 = false := by
  cases hfp : findPeer st pid with
  | none => simp [relaySignal, hfp]
  | some peer =>
    cases hrid : peer.roomId with
    | none => simp [relaySignal, hfp, hrid]
    | some rid =>
      cases hlr : lookupRoom st.rooms rid with
      | none => simp [relaySignal, hfp, hrid, hlr]
      | some room =>
        by_cases hc : toId ∈ room.members
        · rw [relaySignal_target stale toId sdp ice hfp hrid hlr hc]
          intro ev hev
          rw [sendTo_mem ev hev]
          rfl
        · rw [relaySignal_no_target stale toId sdp ice hfp hrid hlr hc]
          simp

theorem onMessage_no_throw {stale : String → Bool} (hstale : ∀ x, stale x = false)
    (st : WState) (pid : String) (m : InMsg) :
    (onMessage stale st pid m).2.2 = false := by
  cases m with
  | join roomId keyHash rtc => exact joinRoom_no_throw hstale st pid roomId keyHash rtc
  | signal toId sdp ice => exact relaySignal_no_throw hstale st pid toId sdp ice
  | disconnect => rfl
  | pong => rfl
  | other => rfl

theorem onMessage_no_error (stale : String → Bool) (st : WState) (pid : String) (m : InMsg) :
    ∀ ev ∈ (onMessage stale st pid m).2.1, isError ev.2 = false := by
  cases m with
  | join roomId keyHash rtc => exact joinRoom_no_error stale st pid roomId keyHash rtc
  | signal toId sdp ice => exact relaySignal_no_error stale st pid toId sdp ice
  | disconnect =>
    intro ev hev
    rw [leaveRoom_events_payload stale st pid ev hev]
    rfl
  | pong => simp [onMessage]
  | other => simp [onMessage]

theorem handleFrame_wellformed (st : WState) (pid : String) (m : InMsg) :
    handleFrame (fun _ => false) st pid (some m) =
      ((onMessage (fun _ => false) st pid m).1, (onMessage (fun _ => false) st pid m).2.1) := by
  have ht := @onMessage_no_throw (fun _ => false) (fun _ => rfl) st pid m
  simp only [handleFrame, ht, Bool.false_eq_true, if_false]

/-! ## Invariant along every step -/

theorem wf_onMessage (stale : String → Bool) (st : WState) (pid : String) (m : InMsg)
    (h : WF st) : WF (onMessage stale st pid m).1 := by
  cases m with
  | join roomId keyHash rtc => exact wf_join stale pid roomId keyHash rtc h
  | signal toId sdp ice =>
    show WF (relaySignal stale st pid toId sdp ice).1
    rw [relaySignal_state]
    exact h
  | disconnect => exact wfx_leave stale pid h
  | pong => exact h
  | other => exact h

theorem wf_handleFrame (stale : String → Bool) (st : WState) (pid : String)
    (f : Option InMsg) (h : WF st) : WF (handleFrame stale st pid f).1 := by
  cases f with
  | none => exact h
  | some m =>
    have hm := wf_onMessage stale st pid m h
    cases hr : (onMessage stale st pid m).2.2 with
    | true =>
      simp only [handleFrame, hr, if_true]
      exact hm
    | false =>
      simp only [handleFrame, hr, Bool.false_eq_true, if_false]
      exact hm

theorem wf_step {st st2 : WState} (h : Step st st2) (hw : WF st) : WF st2 := by
  cases h with
  | connect id name hfresh => exact wfx_connect id name hw hfresh
  | frame stale pid f hmem => exact wf_handleFrame stale st pid f hw
  | socketClosed stale pid hmem => exact wfx_leave stale pid hw

theorem wf_init : WF initState := by
  constructor <;> simp [initState]

theorem reachable_wf {st : WState} (h : Reachable st) : WF st := by
  induction h with
  | refl => exact wf_init
  | tail _ hstep ih => exact wf_step hstep ih

/-! ## Concrete reachability of the demo states -/

theorem demo1_reachable : Reachable demo1 :=
  Relation.ReflTransGen.tail Relation.ReflTransGen.refl
    (Step.connect initState "a" demoName (by simp [initState]))

theorem demo2_reachable : Reachable demo2 :=
  Relation.ReflTransGen.tail demo1_reachable
    (Step.frame demo1 (fun _ => false) "a" (some (.join "r" "k1" none)) (by decide))

theorem demo3_reachable : Reachable demo3 :=
  Relation.ReflTransGen.tail demo2_reachable
    (Step.connect demo2 "b" demoName (by decide))

theorem demo4_reachable : Reachable demo4 :=
  Relation.ReflTransGen.tail demo3_reachable
    (Step.frame demo3 (fun _ => false) "b" (some (.join "r2" "k2" none)) (by decide))

theorem demo5_reachable : Reachable demo5 :=
  Relation.ReflTransGen.tail demo3_reachable
    (Step.frame demo3 (fun _ => false) "b" (some (.join "r" "k1" none)) (by decide))

/-! ## Claim theorems -/

/-- C2: in every state reachable by any sequence of connects, joins, signals,
disconnects, socket closes and malformed frames, membership is mutually
consistent: a peer whose `roomId` is non-null appears in that room's member
map under its own id, and every member-map entry is a live peer whose
`roomId` is that room's id. -/
theorem c2_membership_consistent {st : WState} (h : Reachable st) :
    (∀ p ∈ st.peers, ∀ rid, p.roomId = some rid →
      ∃ room, lookupRoom st.rooms rid = some room ∧ p.id ∈ room.members) ∧
    (∀ kr ∈ st.rooms, ∀ mid ∈ kr.2.members,
      ∃ p ∈ st.peers, p.id = mid ∧ p.roomId = some kr.1) :=
  ⟨(reachable_wf h).peerRoom, (reachable_wf h).memberPeer⟩

/-- Witness for C2: the invariant evaluated at the concrete reachable state
`demo4` (peers `"a"` in `"r"`, `"b"` in `"r2"`). -/
theorem c2_membership_consistent_witness :
    (∀ p ∈ demo4.peers, ∀ rid, p.roomId = some rid →
      ∃ room, lookupRoom demo4.rooms rid = some room ∧ p.id ∈ room.members) ∧
    (∀ kr ∈ demo4.rooms, ∀ mid ∈ kr.2.members,
      ∃ p ∈ demo4.peers, p.id = mid ∧ p.roomId = some kr.1) :=
  c2_membership_consistent demo4_reachable

/-- C4: in every reachable state (i.e. after any single operation completes),
every room present in the registry has at least one member. -/
theorem c4_rooms_nonempty {st : WState} (h : Reachable st) :
    ∀ kr ∈ st.rooms, kr.2.members ≠ [] := fun kr hkr =>
  (reachable_wf h).roomNonempty kr hkr ((reachable_wf h).roomIdNe kr hkr)

/-- Witness for C4 at the concrete reachable state `demo4` and its room
`"r"`. -/
theorem c4_rooms_nonempty_witness :
    ("r", (⟨"k1", ["a"]⟩ : Room)) ∈ demo4.rooms ∧ (⟨"k1", ["a"]⟩ : Room).members ≠ [] :=
  ⟨by decide, c4_rooms_nonempty demo4_reachable ("r", ⟨"k1", ["a"]⟩) (by decide)⟩

/-- C6: a `signal` from a Joined sender to a target id present in its room is
delivered exactly to that target's channel, verbatim (same `sdp`/`ice`),
tagged with the sender's id, with no state change; an un-Joined sender, or a
target id absent from the sender's room, results in a silent drop: no state
change and no message to anyone, in particular no reply to the sender. -/
theorem c6_signal_delivery :
    (∀ (stale : String → Bool) (st : WState) (pid toId : String) (sdp ice : Option String)
      (peer : Peer) (rid : String) (room : Room),
      findPeer st pid = some peer → peer.roomId = some rid →
      lookupRoom st.rooms rid = some room → toId ∈ room.members → stale toId = false →
      relaySignal stale st pid toId sdp ice = (st, [(toId, .signal pid sdp ice)], false)) ∧
    (∀ (stale : String → Bool) (st : WState) (pid toId : String) (sdp ice : Option String)
      (peer : Peer),
      findPeer st pid = some peer → peer.roomId = none →
      relaySignal stale st pid toId sdp ice = (st, [], false)) ∧
    (∀ (stale : String → Bool) (st : WState) (pid toId : String) (sdp ice : Option String)
      (peer : Peer) (rid : String) (room : Room),
      findPeer st pid = some peer → peer.roomId = some rid →
      lookupRoom st.rooms rid = some room → toId ∉ room.members →
      relaySignal stale st pid toId sdp ice = (st, [], false)) := by
  refine ⟨?_, ?_, ?_⟩
  · intro stale st pid toId sdp ice peer rid room hfp hrid hlr hmem hs
    rw [relaySignal_target stale toId sdp ice hfp hrid hlr hmem]
    simp [sendTo, hs]
  · intro stale st pid toId sdp ice peer hfp hrid
    exact relaySignal_unjoined stale toId sdp ice hfp hrid
  · intro stale st pid toId sdp ice peer rid room hfp hrid hlr hmem
    exact relaySignal_no_target stale toId sdp ice hfp hrid hlr hmem

/-- Witness for C6 in the concrete state `demo5` (`"a"` and `"b"` both in room
`"r"`): a signal `"a" → "b"` is delivered; a signal from the un-Joined peer
`"b"` of `demo3` is dropped; a signal from `"a"` to the absent id `"zz"` is
dropped. -/
theorem c6_signal_delivery_witness :
    relaySignal (fun _ => false) demo5 "a" "b" (some "sdp") none =
      (demo5, [("b", .signal "a" (some "sdp") none)], false) ∧
    relaySignal (fun _ => false) demo3 "b" "a" (some "sdp") none = (demo3, [], false) ∧
    relaySignal (fun _ => false) demo5 "a" "zz" (some "sdp") none = (demo5, [], false) :=
  ⟨c6_signal_delivery.1 (fun _ => false) demo5 "a" "b" (some "sdp") none
      ⟨"a", some "r", "k1", demoName, true⟩ "r" ⟨"k1", ["a", "b"]⟩
      (by decide) (by decide) (by decide) (by decide) rfl,
    c6_signal_delivery.2.1 (fun _ => false) demo3 "b" "a" (some "sdp") none
      (initPeer "b" demoName) (by decide) (by decide),
    c6_signal_delivery.2.2 (fun _ => false) demo5 "a" "zz" (some "sdp") none
      ⟨"a", some "r", "k1", demoName, true⟩ "r" ⟨"k1", ["a", "b"]⟩
      (by decide) (by decide) (by decide) (by decide)⟩

/-- C10: a peer Joined to a room that addresses a `signal` to its own id
receives the payload back on its own channel, tagged with itself as sender:
`relaySignal` does not exclude the sender from being the target, because the
sender is itself an entry of its room's member map (membership invariant). -/
theorem c10_self_signal {st : WState} {pid : String} {peer : Peer} {rid : String}
    {room : Room} (stale : String → Bool) (sdp ice : Option String)
    (h : Reachable st) (hfp : findPeer st pid = some peer)
    (hrid : peer.roomId = some rid) (hlr : lookupRoom st.rooms rid = some room)
    (hs : stale pid = false) :
    relaySignal stale st pid pid sdp ice = (st, [(pid, .signal pid sdp ice)], false) := by
  have hmem : pid ∈ room.members :=
    pid_mem_room (wfx_of_wf (reachable_wf h) "") hfp hrid hlr
  rw [relaySignal_target stale pid sdp ice hfp hrid hlr hmem]
  simp [sendTo, hs]

/-- Witness for C10: in `demo2`, `"a"` signals its own id and receives the
message back with `sender = "a"`. -/
theorem c10_self_signal_witness :
    relaySignal (fun _ => false) demo2 "a" "a" none (some "cand") =
      (demo2, [("a", .signal "a" none (some "cand"))], false) :=
  @c10_self_signal demo2 "a" ⟨"a", some "r", "k1", demoName, true⟩ "r" ⟨"k1", ["a"]⟩
    (fun _ => false) none (some "cand") demo2_reachable
    (by decide) (by decide) (by decide) rfl

/-- C9: `broadcast` delivers the payload to every live member except the
excluded id, each exactly once (the recipient list has no duplicates); the
delivery to a member `m` does not depend on other members' socket failures
(the first clause holds for every `stale` function); every emitted message is
exactly the payload (so a failure is never surfaced as an error message to
anyone, in particular not to the excluded/triggering peer, who receives
nothing at all). -/
theorem c9_broadcast_best_effort :
    (∀ (stale : String → Bool) (room : Room) (payload : OutMsg) (e m : String),
      m ∈ room.members → stale m = false → m ≠ e →
      (m, payload) ∈ broadcast stale room payload (some e)) ∧
    (∀ (stale : String → Bool) (room : Room) (payload : OutMsg) (ex : Option String),
      room.members.Nodup → ((broadcast stale room payload ex).map Prod.fst).Nodup) ∧
    (∀ (stale : String → Bool) (room : Room) (payload : OutMsg) (ex : Option String),
      ∀ ev ∈ broadcast stale room payload ex, ev.2 = payload) ∧
    (∀ (stale : String → Bool) (room : Room) (payload : OutMsg) (e : String),
      e ≠ "" → ∀ ev ∈ broadcast stale room payload (some e), ev.1 ≠ e) := by
  refine ⟨?_, ?_, ?_, ?_⟩
  · intro stale room payload e m hm hs hme
    exact mem_broadcast_of stale room payload hm hs
      (fun e2 he2 _ => by cases he2; exact hme)
  · intro stale room payload ex hn
    exact recipients_nodup hn
  · intro stale room payload ex ev hev
    exact (mem_broadcast hev).2.1
  · intro stale room payload e he ev hev
    exact (mem_broadcast hev).2.2.2 e rfl he

/-- Witness for C9 on a concrete room `["a", "b", "c"]` with `"b"` stale and
`"c"` excluded: `"a"` still receives the payload. -/
theorem c9_broadcast_best_effort_witness :
    ("a", OutMsg.peerLeft "x") ∈
      broadcast (fun s => s == "b") ⟨"k", ["a", "b", "c"]⟩ (.peerLeft "x") (some "c") ∧
    ((broadcast (fun s => s == "b") ⟨"k", ["a", "b", "c"]⟩ (.peerLeft "x")
      (some "c")).map Prod.fst).Nodup ∧
    (∀ ev ∈ broadcast (fun s => s == "b") ⟨"k", ["a", "b", "c"]⟩ (.peerLeft "x") (some "c"),
      ev.2 = .peerLeft "x") ∧
    (∀ ev ∈ broadcast (fun s => s == "b") ⟨"k", ["a", "b", "c"]⟩ (.peerLeft "x") (some "c"),
      ev.1 ≠ "c") :=
  ⟨c9_broadcast_best_effort.1 (fun s => s == "b") ⟨"k", ["a", "b", "c"]⟩ (.peerLeft "x")
      "c" "a" (by decide) rfl (by decide),
    c9_broadcast_best_effort.2.1 (fun s => s == "b") ⟨"k", ["a", "b", "c"]⟩ (.peerLeft "x")
      (some "c") (by decide),
    c9_broadcast_best_effort.2.2.1 (fun s => s == "b") ⟨"k", ["a", "b", "c"]⟩
      (.peerLeft "x") (some "c"),
    c9_broadcast_best_effort.2.2.2 (fun s => s == "b") ⟨"k", ["a", "b", "c"]⟩
      (.peerLeft "x") "c" (by decide)⟩

/-- C5: the leave sequence is idempotent.  On an Unjoined peer it changes
nothing and sends nothing.  On a peer Joined to room `rid` it removes the
peer from the room's membership, sends exactly one `peer-left` notice with
the departing peer's id to each remaining live member and none to the
departing peer, removes the room from the registry iff the peer was its last
member, sets the peer Unjoined — and a second invocation (e.g. a `close`
event after an `error` event) is a no-op. -/
theorem c5_leave_idempotent :
    (∀ (stale : String → Bool) (st : WState) (pid : String) (peer : Peer),
      findPeer st pid = some peer → peer.roomId = none →
      leaveRoom stale st pid = (st, [])) ∧
    (∀ (stale : String → Bool) (st : WState) (pid rid : String) (peer : Peer) (room : Room),
      Reachable st → findPeer st pid = some peer → peer.roomId = some rid →
      lookupRoom st.rooms rid = some room →
      findPeer (leaveRoom stale st pid).1 pid = some { peer with roomId := none } ∧
      (∀ room2, lookupRoom (leaveRoom stale st pid).1.rooms rid = some room2 →
        room2.members = room.members.erase pid) ∧
      (lookupRoom (leaveRoom stale st pid).1.rooms rid = none ↔ room.members = [pid]) ∧
      (∀ ev ∈ (leaveRoom stale st pid).2,
        ev.2 = .peerLeft pid ∧ ev.1 ∈ room.members.erase pid ∧ ev.1 ≠ pid) ∧
      ((leaveRoom stale st pid).2.map Prod.fst).Nodup ∧
      (∀ m ∈ room.members.erase pid, stale m = false →
        (m, .peerLeft pid) ∈ (leaveRoom stale st pid).2) ∧
      (∀ stale2 : String → Bool,
        leaveRoom stale2 (leaveRoom stale st pid).1 pid = ((leaveRoom stale st pid).1, []))) := by
  constructor
  · intro stale st pid peer hfp hrid
    exact leaveRoom_unjoined stale hfp hrid
  · intro stale st pid rid peer room hre hfp hrid hlr
    have hw : WF st := reachable_wf hre
    have hnd : room.members.Nodup := hw.membersNodup (rid, room) (lookupRoom_mem hlr)
    have hpmem : pid ∈ room.members := pid_mem_room (wfx_of_wf hw "") hfp hrid hlr
    have hfpL : findPeer (leaveRoom stale st pid).1 pid = some { peer with roomId := none } :=
      leaveRoom_findPeer stale (wfx_of_wf hw "") hfp
    refine ⟨hfpL, ?_, ?_, ?_, ?_, ?_, ?_⟩
    · intro room2 h2
      rw [leaveRoom_joined stale hfp hrid hlr] at h2
      by_cases he : (room.members.erase pid).isEmpty
      · rw [if_pos he] at h2
        have h3 : lookupRoom (eraseRoom st.rooms rid) rid = some room2 := h2
        rw [lookupRoom_eraseRoom, if_pos rfl] at h3
        cases h3
      · rw [if_neg he] at h2
        have h3 : lookupRoom (updateRoom st.rooms rid
          (fun _ => { room with members := room.members.erase pid })) rid = some room2 := h2
        rw [lookupRoom_updateRoom, if_pos rfl, hlr] at h3
        cases h3
        rfl
    · rw [leaveRoom_joined stale hfp hrid hlr]
      by_cases he : (room.members.erase pid).isEmpty
      · rw [if_pos he]
        constructor
        · intro _
          exact (erase_eq_nil_iff hnd hpmem).mp (List.isEmpty_iff.mp he)
        · intro _
          show lookupRoom (eraseRoom st.rooms rid) rid = none
          rw [lookupRoom_eraseRoom, if_pos rfl]
      · rw [if_neg he]
        constructor
        · intro h2
          have h3 : lookupRoom (updateRoom st.rooms rid
            (fun _ => { room with members := room.members.erase pid })) rid = none := h2
          rw [lookupRoom_updateRoom, if_pos rfl, hlr] at h3
          cases h3
        · intro h2
          exfalso
          apply he
          rw [List.isEmpty_iff]
          exact (erase_eq_nil_iff hnd hpmem).mpr h2
    · rw [leaveRoom_joined stale hfp hrid hlr]
      intro ev hev
      have h2 := mem_broadcast hev
      refine ⟨h2.2.1, h2.1, ?_⟩
      intro hevpid
      have := hnd.mem_erase_iff.mp (hevpid ▸ h2.1)
      exact this.1 rfl
    · rw [leaveRoom_joined stale hfp hrid hlr]
      exact recipients_nodup (hnd.erase pid)
    · intro m hm hsm
      rw [leaveRoom_joined stale hfp hrid hlr]
      refine mem_broadcast_of stale _ _ hm hsm ?_
      intro e he _
      cases he
      exact (hnd.mem_erase_iff.mp hm).1
    · intro stale2
      exact leaveRoom_unjoined stale2 hfpL rfl

/-- Witness for C5: part one on the Unjoined peer `"b"` of `demo3`; part two
on `"a"` leaving room `"r"` of `demo5` (where `"b"` remains). -/
theorem c5_leave_idempotent_witness :
    leaveRoom (fun _ => false) demo3 "b" = (demo3, []) ∧
    (findPeer (leaveRoom (fun _ => false) demo5 "a").1 "a" =
        some { (⟨"a", some "r", "k1", demoName, true⟩ : Peer) with roomId := none } ∧
      (∀ room2, lookupRoom (leaveRoom (fun _ => false) demo5 "a").1.rooms "r" = some room2 →
        room2.members = (["a", "b"] : List String).erase "a") ∧
      (lookupRoom (leaveRoom (fun _ => false) demo5 "a").1.rooms "r" = none ↔
        (["a", "b"] : List String) = ["a"]) ∧
      (∀ ev ∈ (leaveRoom (fun _ => false) demo5 "a").2,
        ev.2 = .peerLeft "a" ∧ ev.1 ∈ (["a", "b"] : List String).erase "a" ∧ ev.1 ≠ "a") ∧
      ((leaveRoom (fun _ => false) demo5 "a").2.map Prod.fst).Nodup ∧
      (∀ m ∈ (["a", "b"] : List String).erase "a", (fun _ => false) m = false →
        (m, OutMsg.peerLeft "a") ∈ (leaveRoom (fun _ => false) demo5 "a").2) ∧
      (∀ stale2 : String → Bool,
        leaveRoom stale2 (leaveRoom (fun _ => false) demo5 "a").1 "a" =
          ((leaveRoom (fun _ => false) demo5 "a").1, []))) :=
  ⟨c5_leave_idempotent.1 (fun _ => false) demo3 "b" (initPeer "b" demoName)
      (by decide) rfl,
    c5_leave_idempotent.2 (fun _ => false) demo5 "a" "r"
      ⟨"a", some "r", "k1", demoName, true⟩ ⟨"k1", ["a", "b"]⟩
      demo5_reachable (by decide) (by decide) (by decide)⟩

/-- Counterexample to C1 as stated: in the reachable state `demo4` (peer `"a"`
Joined to `"r"` with key `"k1"`, room `"r2"` existing with secret `"k2"`),
`"a"` sends `join(roomId="r2", key="bad")`.  The claim predicts the leave
sequence for `"r"` runs first, so the rejected peer ends Unjoined with a
`peer-left` delivered; in fact the admission check happens before any leave:
the state is completely unchanged, `"a"` is still Joined to `"r"` (its
`roomId` is `some "r"`, not `none`), `"r"` still lists `"a"`, and the only
message sent is the `room-key-mismatch` reply. -/
theorem c1_counterexample :
    (handleFrame (fun _ => false) demo4 "a" (some (.join "r2" "bad" none))).1 = demo4 ∧
    (handleFrame (fun _ => false) demo4 "a" (some (.join "r2" "bad" none))).2 =
      [("a", .roomKeyMismatch)] ∧
    Option.map Peer.roomId
      (findPeer (handleFrame (fun _ => false) demo4 "a"
        (some (.join "r2" "bad" none))).1 "a") = some (some "r") ∧
    lookupRoom (handleFrame (fun _ => false) demo4 "a"
      (some (.join "r2" "bad" none))).1.rooms "r" = some ⟨"k1", ["a"]⟩ := by
  decide

/-- C1 (amended): when a peer Joined to room `r1` sends a join for a
different room, the target room is resolved and its admission secret checked
BEFORE any leave sequence runs; if the join is rejected for key mismatch, no
leave has happened — the state is exactly as before, the peer is still Joined
to `r1`, no `peer-left` notice is sent, and the only traffic is the
`room-key-mismatch` reply to the requester (lost if its socket is stale).
A rejected rejoin to the same room likewise leaves the peer Joined. -/
theorem c1_mismatch_keeps_old_room {st : WState} {pid roomId0 k r1 : String}
    {peer : Peer} {room : Room} (stale : String → Bool) (rtc : Option Bool)
    (hfp : findPeer st pid = some peer) (hr1 : peer.roomId = some r1)
    (hne : jsTrim roomId0 ≠ "")
    (hlr : lookupRoom st.rooms (jsTrim roomId0) = some room)
    (hmk : room.keyHash ≠ "") (hkk : k ≠ room.keyHash) :
    (joinRoom stale st pid roomId0 k rtc).1 = st ∧
    findPeer (joinRoom stale st pid roomId0 k rtc).1 pid = some peer ∧
    peer.roomId = some r1 ∧
    (joinRoom stale st pid roomId0 k rtc).2.1 =
      (if stale pid then [] else [(pid, .roomKeyMismatch)]) ∧
    (∀ ev ∈ (joinRoom stale st pid roomId0 k rtc).2.1, ev.2 ≠ .peerLeft pid) := by
  rw [joinRoom_mismatch stale rtc hne hfp hlr hmk hkk]
  refine ⟨rfl, hfp, hr1, ?_, ?_⟩
  · rw [sendTo]
    split
    · rfl
    · rfl
  · intro ev hev
    rw [sendTo_mem ev hev]
    simp

/-- Witness for C1 (amended) at `demo4`: `"a"` (Joined to `"r"`) is rejected
when joining `"r2"` with a wrong key and stays Joined to `"r"`. -/
theorem c1_mismatch_keeps_old_room_witness :
    (joinRoom (fun _ => false) demo4 "a" "r2" "bad" none).1 = demo4 ∧
    findPeer (joinRoom (fun _ => false) demo4 "a" "r2" "bad" none).1 "a" =
      some ⟨"a", some "r", "k1", demoName, true⟩ ∧
    (⟨"a", some "r", "k1", demoName, true⟩ : Peer).roomId = some "r" ∧
    (joinRoom (fun _ => false) demo4 "a" "r2" "bad" none).2.1 =
      (if (fun _ => false) "a" then [] else [("a", OutMsg.roomKeyMismatch)]) ∧
    (∀ ev ∈ (joinRoom (fun _ => false) demo4 "a" "r2" "bad" none).2.1,
      ev.2 ≠ .peerLeft "a") :=
  @c1_mismatch_keeps_old_room demo4 "a" "r2" "bad" "r"
    ⟨"a", some "r", "k1", demoName, true⟩ ⟨"k2", ["b"]⟩ (fun _ => false) none
    (by decide) (by decide) (by decide) (by decide) (by decide) (by decide)

/-! ## Admission-secret immutability -/

theorem leave_keyHash_back (stale : String → Bool) (s : WState) (pid : String) :
    ∀ q room2, lookupRoom (leaveRoom stale s pid).1.rooms q = some room2 →
      ∃ rm, lookupRoom s.rooms q = some rm ∧ room2.keyHash = rm.keyHash := by
  intro q room2 h2
  cases hfp : findPeer s pid with
  | none =>
    rw [leaveRoom_not_found stale hfp] at h2
    exact ⟨room2, h2, rfl⟩
  | some peer =>
    cases hrid : peer.roomId with
    | none =>
      rw [leaveRoom_unjoined stale hfp hrid] at h2
      exact ⟨room2, h2, rfl⟩
    | some ridp =>
      cases hlrp : lookupRoom s.rooms ridp with
      | none =>
        rw [leaveRoom_no_room stale hfp hrid hlrp] at h2
        exact ⟨room2, h2, rfl⟩
      | some roomp =>
        rw [leaveRoom_joined stale hfp hrid hlrp] at h2
        by_cases he : (roomp.members.erase pid).isEmpty
        · rw [if_pos he] at h2
          have h3 : lookupRoom (eraseRoom s.rooms ridp) q = some room2 := h2
          rw [lookupRoom_eraseRoom] at h3
          by_cases hrr : q = ridp
          · rw [if_pos hrr] at h3
            cases h3
          · rw [if_neg hrr] at h3
            exact ⟨room2, h3, rfl⟩
        · rw [if_neg he] at h2
          have h3 : lookupRoom (updateRoom s.rooms ridp
            (fun _ => { roomp with members := roomp.members.erase pid })) q =
              some room2 := h2
          rw [lookupRoom_updateRoom] at h3
          by_cases hrr : q = ridp
          · rw [if_pos hrr, hlrp] at h3
            rw [hrr]
            cases h3
            exact ⟨roomp, hlrp, rfl⟩
          · rw [if_neg hrr] at h3
            exact ⟨room2, h3, rfl⟩

theorem leave_ite_keyHash_back (stale : String → Bool) (s : WState) (pid : String)
    (c : Prop) [Decidable c] :
    ∀ q room2,
      lookupRoom (if c then leaveRoom stale s pid else (s, [])).1.rooms q = some room2 →
      ∃ rm, lookupRoom s.rooms q = some rm ∧ room2.keyHash = rm.keyHash := by
  by_cases hc : c
  · rw [if_pos hc]
    exact leave_keyHash_back stale s pid
  · rw [if_neg hc]
    intro q room2 h2
    exact ⟨room2, h2, rfl⟩

theorem adopt_ite_keyHash_back (s : WState) (rid0 k : String) (room : Room)
    (hlrT : lookupRoom s.rooms rid0 = some room) :
    ∀ q room2,
      lookupRoom (if room.keyHash = "" ∧ k ≠ "" then
          { s with rooms := updateRoom s.rooms rid0 (fun r => { r with keyHash := k }) }
        else s).rooms q = some room2 →
      ∃ rm, lookupRoom s.rooms q = some rm ∧
        (room2.keyHash = rm.keyHash ∨ rm.keyHash = "") := by
  by_cases had : room.keyHash = "" ∧ k ≠ ""
  · rw [if_pos had]
    intro q room2 h2
    have h3 : lookupRoom (updateRoom s.rooms rid0 (fun r => { r with keyHash := k })) q =
      some room2 := h2
    rw [lookupRoom_updateRoom] at h3
    by_cases hrr : q = rid0
    · rw [if_pos hrr, hlrT] at h3
      cases h3
      rw [hrr]
      exact ⟨room, hlrT, Or.inr had.1⟩
    · rw [if_neg hrr] at h3
      exact ⟨room2, h3, Or.inl rfl⟩
  · rw [if_neg had]
    intro q room2 h2
    exact ⟨room2, h2, Or.inl rfl⟩

theorem join_keyHash {st : WState} (stale : String → Bool) (pid roomId0 k : String)
    (rtc : Option Bool) {rid : String} {room : Room} (hw : WF st)
    (hlr0 : lookupRoom st.rooms rid = some room) (hmk : room.keyHash ≠ "") :
    ∀ room2, lookupRoom (joinRoom stale st pid roomId0 k rtc).1.rooms rid = some room2 →
      room2.keyHash = room.keyHash := by
  intro room2 h2
  by_cases hne : jsTrim roomId0 = ""
  · rw [show (joinRoom stale st pid roomId0 k rtc).1 = st by
      simp only [joinRoom, if_pos hne]] at h2
    rw [hlr0] at h2
    cases h2
    rfl
  · cases hfp : findPeer st pid with
    | none =>
      rw [show (joinRoom stale st pid roomId0 k rtc).1 = st by
        simp only [joinRoom, if_neg hne, hfp]] at h2
      rw [hlr0] at h2
      cases h2
      rfl
    | some peer =>
      cases hlrT : lookupRoom st.rooms (jsTrim roomId0) with
      | some roomT =>
        by_cases hmis : roomT.keyHash ≠ "" ∧ k ≠ roomT.keyHash
        · rw [joinRoom_mismatch stale rtc hne hfp hlrT hmis.1 hmis.2] at h2
          have h3 : lookupRoom st.rooms rid = some room2 := h2
          rw [hlr0] at h3
          cases h3
          rfl
        · rcases join_adopt_step (k := k) (wfx_of_wf hw _) hfp hlrT with
            ⟨roomA, hfp2, hlr2, hW2, _, hkeyA⟩
          rcases join_leave_step stale hW2 hfp2 hlr2 with ⟨peerL, hfpL, hlrL, hprL, hWL⟩
          rw [joinRoom_state_success rtc hne hfp (getOrCreateRoom_some k hlrT) hmis rfl rfl
            hlrL] at h2
          have h3 : lookupRoom (updateRoom _ (jsTrim roomId0)
            (fun r => { r with members := memberSet r.members pid })) rid =
              some room2 := h2
          rw [lookupRoom_updateRoom] at h3
          by_cases hrr : rid = jsTrim roomId0
          · rw [if_pos hrr] at h3
            rcases Option.map_eq_some'.mp h3 with ⟨rmX, hx, hx2⟩
            rcases leave_ite_keyHash_back stale _ pid _ _ rmX hx with ⟨rmMid, hmid, hk1⟩
            rcases adopt_ite_keyHash_back st (jsTrim roomId0) k roomT hlrT _ rmMid hmid
              with ⟨rm0, h0, hk2⟩
            rw [← hrr, hlr0] at h0
            cases h0
            have hxk : room2.keyHash = rmX.keyHash := by
              rw [← hx2]
            rcases hk2 with hk2 | hk2
            · rw [hxk, hk1, hk2]
            · exact absurd hk2 hmk
          · rw [if_neg hrr] at h3
            rcases leave_ite_keyHash_back stale _ pid _ rid room2 h3 with ⟨rmMid, hmid, hk1⟩
            rcases adopt_ite_keyHash_back st (jsTrim roomId0) k roomT hlrT rid rmMid hmid
              with ⟨rm0, h0, hk2⟩
            rw [hlr0] at h0
            cases h0
            rcases hk2 with hk2 | hk2
            · rw [hk1, hk2]
            · exact absurd hk2 hmk
      | none =>
        have hmis : ¬((⟨k, []⟩ : Room).keyHash ≠ "" ∧ k ≠ (⟨k, []⟩ : Room).keyHash) := by
          rintro ⟨h1', h2'⟩
          exact h2' rfl
        have hrr : rid ≠ jsTrim roomId0 := by
          intro hq
          rw [hq, hlrT] at hlr0
          cases hlr0
        have hfp1 : findPeer { st with rooms := st.rooms ++ [(jsTrim roomId0, ⟨k, []⟩)] }
            pid = some peer := hfp
        have hlr1 : lookupRoom ({ st with
            rooms := st.rooms ++ [(jsTrim roomId0, ⟨k, []⟩)] } : WState).rooms
            (jsTrim roomId0) = some ⟨k, []⟩ := by
          show lookupRoom (st.rooms ++ [(jsTrim roomId0, ⟨k, []⟩)]) (jsTrim roomId0) = _
          rw [lookupRoom_append_of_none hlrT, if_pos rfl]
        have hW1 : WFX { st with rooms := st.rooms ++ [(jsTrim roomId0, ⟨k, []⟩)] }
            (jsTrim roomId0) := wfx_append_room k (wfx_of_wf hw _) hlrT hne
        rcases join_adopt_step (k := k) hW1 hfp1 hlr1 with
          ⟨roomA, hfp2, hlr2, hW2, _, hkeyA⟩
        rcases join_leave_step stale hW2 hfp2 hlr2 with ⟨peerL, hfpL, hlrL, hprL, hWL⟩
        rw [joinRoom_state_success rtc hne hfp (getOrCreateRoom_none k hlrT) hmis rfl rfl
          hlrL] at h2
        have h3 : lookupRoom (updateRoom _ (jsTrim roomId0)
          (fun r => { r with members := memberSet r.members pid })) rid =
            some room2 := h2
        rw [lookupRoom_updateRoom, if_neg hrr] at h3
        rcases leave_ite_keyHash_back stale _ pid _ rid room2 h3 with ⟨rmMid, hmid, hk1⟩
        rcases adopt_ite_keyHash_back _ (jsTrim roomId0) k ⟨k, []⟩ hlr1 rid rmMid hmid
          with ⟨rm0, h0, hk2⟩
        have h0' : lookupRoom (st.rooms ++ [(jsTrim roomId0, ⟨k, []⟩)]) rid =
          some rm0 := h0
        rw [lookupRoom_append_of_some hlr0] at h0'
        cases h0'
        rcases hk2 with hk2 | hk2
        · rw [hk1, hk2]
        · exact absurd hk2 hmk

theorem handleFrame_state_eq (stale : String → Bool) (st : WState) (pid : String)
    (m : InMsg) :
    (handleFrame stale st pid (some m)).1 = (onMessage stale st pid m).1 := by
  simp only [handleFrame]
  split
  · rfl
  · rfl

theorem step_keyHash {st st2 : WState} (h : Step st st2) (hw : WF st) {rid : String}
    {room : Room} (hlr : lookupRoom st.rooms rid = some room)
    (hmk : room.keyHash ≠ "") :
    ∀ room2, lookupRoom st2.rooms rid = some room2 → room2.keyHash = room.keyHash := by
  cases h with
  | connect id name hfresh =>
    intro room2 h2
    have h3 : lookupRoom st.rooms rid = some room2 := h2
    rw [hlr] at h3
    cases h3
    rfl
  | frame stale pid f hmem =>
    cases f with
    | none =>
      intro room2 h2
      have h3 : lookupRoom st.rooms rid = some room2 := h2
      rw [hlr] at h3
      cases h3
      rfl
    | some m =>
      rw [handleFrame_state_eq]
      cases m with
      | join roomId keyHash rtc => exact join_keyHash stale pid roomId keyHash rtc hw hlr hmk
      | signal toId sdp ice =>
        intro room2 h2
        have h3 : lookupRoom (relaySignal stale st pid toId sdp ice).1.rooms rid =
          some room2 := h2
        rw [relaySignal_state, hlr] at h3
        cases h3
        rfl
      | disconnect =>
        intro room2 h2
        have h3 : lookupRoom (leaveRoom stale st pid).1.rooms rid = some room2 := h2
        rcases leave_keyHash_back stale st pid rid room2 h3 with ⟨rm, hrm, hk⟩
        rw [hlr] at hrm
        cases hrm
        exact hk
      | pong =>
        intro room2 h2
        have h3 : lookupRoom st.rooms rid = some room2 := h2
        rw [hlr] at h3
        cases h3
        rfl
      | other =>
        intro room2 h2
        have h3 : lookupRoom st.rooms rid = some room2 := h2
        rw [hlr] at h3
        cases h3
        rfl
  | socketClosed stale pid hmem =>
    intro room2 h2
    rcases leave_keyHash_back stale st pid rid room2 h2 with ⟨rm, hrm, hk⟩
    rw [hlr] at hrm
    cases hrm
    exact hk

theorem findPeer_rooms_irrel (s : WState) (R : List (String × Room)) (q : String) :
    findPeer { peers := s.peers, rooms := R } q = findPeer s q := rfl

/-- C3: (i) a join presenting a non-empty key `k` to a room whose admission
secret is empty succeeds and adopts `k` as the room's secret (the peer ends
Joined and a member of the room); (ii) once a room's secret is non-empty, no
single operation of the worker ever changes it while the room exists; (iii) a
join presenting a key different from a room's non-empty secret receives
exactly the `room-key-mismatch` reply and changes nothing — in particular
the room's member set is unchanged. -/
theorem c3_admission_secret :
    (∀ (stale : String → Bool) (st : WState) (pid roomId0 k : String) (rtc : Option Bool)
      (peer : Peer) (room : Room),
      Reachable st → findPeer st pid = some peer → jsTrim roomId0 ≠ "" →
      lookupRoom st.rooms (jsTrim roomId0) = some room → room.keyHash = "" → k ≠ "" →
      ∃ room2, lookupRoom (joinRoom stale st pid roomId0 k rtc).1.rooms (jsTrim roomId0) =
          some room2 ∧ room2.keyHash = k ∧ pid ∈ room2.members ∧
        (∃ p2, findPeer (joinRoom stale st pid roomId0 k rtc).1 pid = some p2 ∧
          p2.roomId = some (jsTrim roomId0))) ∧
    (∀ (st st2 : WState) (rid : String) (room : Room),
      Reachable st → Step st st2 →
      lookupRoom st.rooms rid = some room → room.keyHash ≠ "" →
      ∀ room2, lookupRoom st2.rooms rid = some room2 → room2.keyHash = room.keyHash) ∧
    (∀ (stale : String → Bool) (st : WState) (pid roomId0 k : String) (rtc : Option Bool)
      (peer : Peer) (room : Room),
      findPeer st pid = some peer → jsTrim roomId0 ≠ "" →
      lookupRoom st.rooms (jsTrim roomId0) = some room → room.keyHash ≠ "" →
      k ≠ room.keyHash → stale pid = false →
      (joinRoom stale st pid roomId0 k rtc).1 = st ∧
      (joinRoom stale st pid roomId0 k rtc).2.1 = [(pid, .roomKeyMismatch)]) := by
  refine ⟨?_, ?_, ?_⟩
  · intro stale st pid roomId0 k rtc peer room hre hfp hne hlr hk0 hkne
    have hw := reachable_wf hre
    have hmis : ¬(room.keyHash ≠ "" ∧ k ≠ room.keyHash) := fun hc => hc.1 hk0
    rcases join_adopt_step (k := k) (wfx_of_wf hw _) hfp hlr with
      ⟨roomA, hfp2, hlr2, hW2, hmemA, hkeyA⟩
    rcases join_leave_step stale hW2 hfp2 hlr2 with ⟨peerL, hfpL, hlrL, hprL, hWL⟩
    obtain ⟨⟨stp, evs1⟩, hleft⟩ :
        ∃ pe, (if (match peer.roomId with
            | some old => decide (old ≠ "") && decide (old ≠ jsTrim roomId0)
            | none => false) then
            leaveRoom stale (if room.keyHash = "" ∧ k ≠ "" then { st with rooms := updateRoom st.rooms (jsTrim roomId0) (fun r => { r with keyHash := k }) } else st) pid
          else ((if room.keyHash = "" ∧ k ≠ "" then { st with rooms := updateRoom st.rooms (jsTrim roomId0) (fun r => { r with keyHash := k }) } else st), [])) = pe := ⟨_, rfl⟩
    rw [hleft] at hfpL hlrL
    dsimp only at hfpL hlrL
    have hstate := joinRoom_state_success rtc hne hfp (getOrCreateRoom_some k hlr)
      hmis rfl hleft hlrL
    refine ⟨{ roomA with members := memberSet roomA.members pid }, ?_, ?_, ?_, ?_⟩
    · rw [hstate]
      dsimp only
      rw [lookupRoom_updateRoom, if_pos rfl, hlrL]
      rfl
    · show roomA.keyHash = k
      rw [hkeyA, if_pos ⟨hk0, hkne⟩]
    · exact self_mem_memberSet _ _
    · refine ⟨{ peerL with roomId := some (jsTrim roomId0), roomKeyHash := k, rtcSupported := rtc != some false }, ?_, rfl⟩
      rw [hstate, findPeer_rooms_irrel,
        findPeer_updatePeer _ pid (fun p => { p with roomId := some (jsTrim roomId0), roomKeyHash := k, rtcSupported := rtc != some false }) (fun _ => rfl),
        if_pos rfl, hfpL]
      rfl
  · intro st st2 rid room hre hstep hlr hmk
    exact step_keyHash hstep (reachable_wf hre) hlr hmk
  · intro stale st pid roomId0 k rtc peer room hfp hne hlr hmk hkk hs
    rw [joinRoom_mismatch stale rtc hne hfp hlr hmk hkk]
    refine ⟨rfl, ?_⟩
    rw [sendTo, if_neg]
    rw [hs]
    simp

/-- Witness for C3: (i) at `demo5`, room `"r0"` is first created keyless by
`"b"` presenting no key, then `"a"` joins it with key `"kk"`, which is
adopted; (ii) a concrete `Step` out of `demo2` preserves `"r"`'s secret;
(iii) `"b"` joining `"r"` of `demo2` with key `"bad"` is rejected
unchanged. -/
theorem c3_admission_secret_witness :
    (∃ room2, lookupRoom (joinRoom (fun _ => false)
        (handleFrame (fun _ => false) demo3 "b" (some (.join "r0" "" none))).1
        "a" "r0" "kk" none).1.rooms (jsTrim "r0") = some room2 ∧
      room2.keyHash = "kk" ∧ "a" ∈ room2.members ∧
      (∃ p2, findPeer (joinRoom (fun _ => false)
        (handleFrame (fun _ => false) demo3 "b" (some (.join "r0" "" none))).1
        "a" "r0" "kk" none).1 "a" = some p2 ∧ p2.roomId = some (jsTrim "r0"))) ∧
    (∀ room2, lookupRoom (handleFrame (fun _ => false) demo2 "a"
        (some (.signal "a" none none))).1.rooms "r" = some room2 →
      room2.keyHash = (⟨"k1", ["a"]⟩ : Room).keyHash) ∧
    ((joinRoom (fun _ => false) demo2 "a" "r" "bad" none).1 = demo2 ∧
      (joinRoom (fun _ => false) demo2 "a" "r" "bad" none).2.1 =
        [("a", .roomKeyMismatch)]) := by
  refine ⟨?_, ?_, ?_⟩
  · exact c3_admission_secret.1 (fun _ => false)
      (handleFrame (fun _ => false) demo3 "b" (some (.join "r0" "" none))).1
      "a" "r0" "kk" none ⟨"a", some "r", "k1", demoName, true⟩ ⟨"", ["b"]⟩
      (Relation.ReflTransGen.tail demo3_reachable
        (Step.frame demo3 (fun _ => false) "b" (some (.join "r0" "" none)) (by decide)))
      (by decide) (by decide) (by decide) (by decide) (by decide)
  · exact c3_admission_secret.2.1 demo2
      (handleFrame (fun _ => false) demo2 "a" (some (.signal "a" none none))).1
      "r" ⟨"k1", ["a"]⟩ demo2_reachable
      (Step.frame demo2 (fun _ => false) "a" (some (.signal "a" none none)) (by decide))
      (by decide) (by decide)
  · exact c3_admission_secret.2.2 (fun _ => false) demo2 "a" "r" "bad" none
      ⟨"a", some "r", "k1", demoName, true⟩ ⟨"k1", ["a"]⟩
      (by decide) (by decide) (by decide) (by decide) (by decide) rfl

/-- A found peer record carries the id it was looked up by. -/
theorem findPeer_id {st : WState} {pid : String} {q : Peer}
    (h : findPeer st pid = some q) : q.id = pid :=
  (findPeer_mem h).2

/-- A send to a live socket delivers exactly one event and does not throw. -/
theorem sendTo_live {stale : String → Bool} {pid : String} (m : OutMsg)
    (h : stale pid = false) : sendTo stale pid m = ([(pid, m)], false) := by
  rw [sendTo, if_neg (by rw [h]; exact Bool.false_ne_true)]

/-- `leaveRoom` never touches the record of any other peer. -/
theorem leaveRoom_findPeer_other {st : WState} {pid : String} (stale : String → Bool)
    (q : String) (hq : q ≠ pid) :
    findPeer (leaveRoom stale st pid).1 q = findPeer st q := by
  cases hfp : findPeer st pid with
  | none => rw [leaveRoom_not_found stale hfp]
  | some peer =>
    cases hrid : peer.roomId with
    | none => rw [leaveRoom_unjoined stale hfp hrid]
    | some rid =>
      cases hlr : lookupRoom st.rooms rid with
      | none => rw [leaveRoom_no_room stale hfp hrid hlr]
      | some room =>
        rw [leaveRoom_joined stale hfp hrid hlr]
        dsimp only
        rw [findPeer_updatePeer _ pid (fun p => { p with roomId := none }) (fun _ => rfl) q,
          if_neg hq]
        split
        · rfl
        · rfl

/-- Two states that agree on every peer record other than `pid` produce the
same self-excluded roster. -/
theorem roster_filter_agree (stA stB : WState) (pid : String)
    (hagree : ∀ mid, mid ≠ pid → findPeer stA mid = findPeer stB mid) :
    ∀ ms : List String,
      (ms.filterMap (fun mid => findPeer stA mid)).filter (fun p => p.id ≠ pid) =
        (ms.filterMap (fun mid => findPeer stB mid)).filter (fun p => p.id ≠ pid) := by
  intro ms
  induction ms with
  | nil => rfl
  | cons mid t ih =>
    by_cases hm : mid = pid
    · cases hA : findPeer stA mid with
      | none =>
        cases hB : findPeer stB mid with
        | none =>
          simp only [List.filterMap_cons, hA, hB]
          exact ih
        | some qB =>
          simp only [List.filterMap_cons, hA, hB]
          rw [List.filter_cons_of_neg (by simp [findPeer_id hB, hm])]
          exact ih
      | some qA =>
        cases hB : findPeer stB mid with
        | none =>
          simp only [List.filterMap_cons, hA, hB]
          rw [List.filter_cons_of_neg (by simp [findPeer_id hA, hm])]
          exact ih
        | some qB =>
          simp only [List.filterMap_cons, hA, hB]
          rw [List.filter_cons_of_neg (by simp [findPeer_id hA, hm]),
            List.filter_cons_of_neg (by simp [findPeer_id hB, hm])]
          exact ih
    · cases hB : findPeer stB mid with
      | none =>
        simp only [List.filterMap_cons, hagree mid hm, hB]
        exact ih
      | some qB =>
        simp only [List.filterMap_cons, hagree mid hm, hB, List.filter_cons]
        rw [ih]

/-- Appending the joiner itself to the member list does not change the
self-excluded roster. -/
theorem roster_drop_self (stA : WState) (pid : String) (ms : List String) :
    ((ms ++ [pid]).filterMap (fun mid => findPeer stA mid)).filter (fun p => p.id ≠ pid) =
      (ms.filterMap (fun mid => findPeer stA mid)).filter (fun p => p.id ≠ pid) := by
  rw [List.filterMap_append, List.filter_append]
  cases hA : findPeer stA pid with
  | none =>
    simp only [List.filterMap_cons, List.filterMap_nil, hA, List.filter_nil, List.append_nil]
  | some qA =>
    simp only [List.filterMap_cons, List.filterMap_nil, hA]
    rw [List.filter_cons_of_neg (by simp [findPeer_id hA]), List.filter_nil,
      List.append_nil]

/-- Inserting the joiner into the member map does not change the self-excluded
roster. -/
theorem roster_memberSet (stA : WState) (pid : String) (ms : List String) :
    (((memberSet ms pid).filterMap (fun mid => findPeer stA mid)).filter
        (fun p => p.id ≠ pid)) =
      ((ms.filterMap (fun mid => findPeer stA mid)).filter (fun p => p.id ≠ pid)) := by
  rw [memberSet]
  split
  · rfl
  · exact roster_drop_self stA pid ms

/-- Filtering an event list for welcomes keeps exactly the one welcome when
everything around it is not a welcome. -/
theorem filter_isWelcome_decomp (evs3 : List Ev) (e : Ev)
    (he : isWelcome e.2 = true) :
    ∀ evs1 : List Ev, (∀ ev ∈ evs1, isWelcome ev.2 = false) →
      (∀ ev ∈ evs3, isWelcome ev.2 = false) →
      (evs1 ++ [e] ++ evs3).filter (fun ev => isWelcome ev.2) = [e] := by
  have hnil : ∀ l : List Ev, (∀ ev ∈ l, isWelcome ev.2 = false) →
      l.filter (fun ev => isWelcome ev.2) = [] := by
    intro l
    induction l with
    | nil => intro _; rfl
    | cons a t ih =>
      intro h
      simp only [List.filter_cons, h a (List.mem_cons_self a t), Bool.false_eq_true, if_false]
      exact ih (fun ev hev => h ev (List.mem_cons_of_mem a hev))
  intro evs1 h1 h3
  induction evs1 with
  | nil =>
    rw [List.nil_append, List.cons_append, List.nil_append]
    simp only [List.filter_cons, he, eq_self_iff_true, if_true]
    rw [hnil evs3 h3]
  | cons a t ih =>
    rw [List.cons_append, List.cons_append]
    simp only [List.filter_cons, h1 a (List.mem_cons_self a t), Bool.false_eq_true, if_false]
    exact ih (fun ev hev => h1 ev (List.mem_cons_of_mem a hev))

/-- C7: for every successful join (non-empty trimmed room id, no key
mismatch, live requester socket) the events of the operation contain
exactly one `welcome`, it is addressed to the joining peer, and it carries
the joiner's own id and display identity together with a roster listing
exactly the members the target room had at the moment of the join, the
joiner itself excluded, each entry built by `asPeerInfo` from that member's
record (id, capability flag, name) as it stood before the join. -/
theorem c7_welcome_roster (stale : String → Bool) (st st1 : WState)
    (pid roomId0 k : String) (rtc : Option Bool) (peer : Peer) (room : Room)
    (hre : Reachable st) (hfp : findPeer st pid = some peer)
    (hne : jsTrim roomId0 ≠ "")
    (hgoc : getOrCreateRoom st (jsTrim roomId0) k = (st1, room))
    (hnomis : ¬(room.keyHash ≠ "" ∧ k ≠ room.keyHash))
    (hstale : stale pid = false) :
    ((joinRoom stale st pid roomId0 k rtc).2.1.filter (fun ev => isWelcome ev.2)) =
      [(pid, OutMsg.welcome pid (jsTrim roomId0)
        (((room.members.filterMap (fun mid => findPeer st mid)).filter
          (fun p => p.id ≠ pid)).map asPeerInfo)
        peer.name.displayName peer.name.deviceName)] := by
  have hw := reachable_wf hre
  have hbase : findPeer st1 pid = some peer ∧
      lookupRoom st1.rooms (jsTrim roomId0) = some room ∧
      WFX st1 (jsTrim roomId0) ∧
      (∀ mid : String, findPeer st1 mid = findPeer st mid) := by
    cases hlr : lookupRoom st.rooms (jsTrim roomId0) with
    | some r =>
      have hg2 := getOrCreateRoom_some (k := k) hlr
      rw [hg2] at hgoc
      injection hgoc with h1 h2
      subst h1
      subst h2
      exact ⟨hfp, hlr, wfx_of_wf hw _, fun mid => rfl⟩
    | none =>
      have hg2 := getOrCreateRoom_none (k := k) hlr
      rw [hg2] at hgoc
      injection hgoc with h1 h2
      subst h1
      subst h2
      refine ⟨hfp, ?_, wfx_append_room k (wfx_of_wf hw _) hlr hne, fun mid => rfl⟩
      show lookupRoom (st.rooms ++ [(jsTrim roomId0, (⟨k, []⟩ : Room))]) (jsTrim roomId0) = _
      rw [lookupRoom_append_of_none hlr, if_pos rfl]
  obtain ⟨hfp1, hlr1, hW1, hfpAg⟩ := hbase
  rcases join_adopt_step (k := k) hW1 hfp1 hlr1 with ⟨roomA, hfp2, hlr2, hW2, hmemA, hkeyA⟩
  rcases join_leave_step stale hW2 hfp2 hlr2 with ⟨peerL, hfpL, hlrL, hprL, hWL⟩
  have hagree0 : ∀ mid, mid ≠ pid →
      findPeer (if (match peer.roomId with
          | some old => decide (old ≠ "") && decide (old ≠ jsTrim roomId0)
          | none => false) then
          leaveRoom stale (if room.keyHash = "" ∧ k ≠ "" then { st1 with rooms := updateRoom st1.rooms (jsTrim roomId0) (fun r => { r with keyHash := k }) } else st1) pid
        else ((if room.keyHash = "" ∧ k ≠ "" then { st1 with rooms := updateRoom st1.rooms (jsTrim roomId0) (fun r => { r with keyHash := k }) } else st1), [])).1 mid =
        findPeer st1 mid := by
    intro mid hm
    by_cases hg : (match peer.roomId with
        | some old => decide (old ≠ "") && decide (old ≠ jsTrim roomId0)
        | none => false) = true
    · rw [if_pos hg, leaveRoom_findPeer_other stale mid hm]
      by_cases ha : room.keyHash = "" ∧ k ≠ ""
      · rw [if_pos ha]
        rfl
      · rw [if_neg ha]
    · rw [if_neg hg]
      dsimp only
      by_cases ha : room.keyHash = "" ∧ k ≠ ""
      · rw [if_pos ha]
        rfl
      · rw [if_neg ha]
  have hevs0 : ∀ ev ∈ (if (match peer.roomId with
      | some old => decide (old ≠ "") && decide (old ≠ jsTrim roomId0)
      | none => false) then
      leaveRoom stale (if room.keyHash = "" ∧ k ≠ "" then { st1 with rooms := updateRoom st1.rooms (jsTrim roomId0) (fun r => { r with keyHash := k }) } else st1) pid
    else ((if room.keyHash = "" ∧ k ≠ "" then { st1 with rooms := updateRoom st1.rooms (jsTrim roomId0) (fun r => { r with keyHash := k }) } else st1), [])).2,
      ev.2 = OutMsg.peerLeft pid := by
    by_cases hg : (match peer.roomId with
        | some old => decide (old ≠ "") && decide (old ≠ jsTrim roomId0)
        | none => false) = true
    · rw [if_pos hg]
      exact leaveRoom_events_payload stale _ pid
    · rw [if_neg hg]
      intro ev hev
      simp at hev
  obtain ⟨⟨stp, evs1⟩, hleft⟩ :
      ∃ pe, (if (match peer.roomId with
          | some old => decide (old ≠ "") && decide (old ≠ jsTrim roomId0)
          | none => false) then
          leaveRoom stale (if room.keyHash = "" ∧ k ≠ "" then { st1 with rooms := updateRoom st1.rooms (jsTrim roomId0) (fun r => { r with keyHash := k }) } else st1) pid
        else ((if room.keyHash = "" ∧ k ≠ "" then { st1 with rooms := updateRoom st1.rooms (jsTrim roomId0) (fun r => { r with keyHash := k }) } else st1), [])) = pe := ⟨_, rfl⟩
  rw [hleft] at hfpL hlrL hagree0 hevs0
  dsimp only at hfpL hlrL hagree0 hevs0
  have hag : ∀ mid, mid ≠ pid →
      findPeer { peers := (updatePeer stp pid (fun p => { p with roomId := some (jsTrim roomId0), roomKeyHash := k, rtcSupported := rtc != some false })).peers, rooms := updateRoom stp.rooms (jsTrim roomId0) (fun r => { r with members := memberSet r.members pid }) } mid = findPeer st mid := by
    intro mid hm
    have h1 : findPeer (updatePeer stp pid (fun p => { p with roomId := some (jsTrim roomId0), roomKeyHash := k, rtcSupported := rtc != some false })) mid = findPeer stp mid := by
      rw [findPeer_updatePeer _ pid (fun p => { p with roomId := some (jsTrim roomId0), roomKeyHash := k, rtcSupported := rtc != some false }) (fun _ => rfl) mid, if_neg hm]
    exact h1.trans ((hagree0 mid hm).trans (hfpAg mid))
  have hevs1 : ∀ ev ∈ evs1, isWelcome ev.2 = false := by
    intro ev hev
    rw [hevs0 ev hev]
    rfl
  have hevs3 : ∀ ev ∈ broadcast stale { roomA with members := memberSet room.members pid }
      (OutMsg.peerJoined (asPeerInfo { peer with roomId := some (jsTrim roomId0), roomKeyHash := k, rtcSupported := rtc != some false })) (some pid),
      isWelcome ev.2 = false := by
    intro ev hev
    rw [(mem_broadcast hev).2.1]
    rfl
  have hlrF : lookupRoom (updateRoom stp.rooms (jsTrim roomId0)
      (fun r => { r with members := memberSet r.members pid })) (jsTrim roomId0) =
      some { roomA with members := memberSet roomA.members pid } := by
    rw [lookupRoom_updateRoom, if_pos rfl, hlrL]
    rfl
  rw [joinRoom_unfold hne hfp hgoc hnomis rfl hleft, hlrF]
  dsimp only
  rw [sendTo_live _ hstale]
  dsimp only
  rw [if_neg Bool.false_ne_true]
  dsimp only
  rw [roster_memberSet, hmemA, roster_filter_agree _ st pid hag]
  refine filter_isWelcome_decomp _ _ ?_ _ hevs1 hevs3
  rfl

theorem c7_welcome_roster_witness :
    jsTrim "r" ≠ "" ∧
    ((joinRoom (fun _ => false) demo3 "b" "r" "k1" none).2.1.filter
        (fun ev => isWelcome ev.2)) =
      [("b", OutMsg.welcome "b" (jsTrim "r")
        ((((⟨"k1", ["a"]⟩ : Room).members.filterMap (fun mid => findPeer demo3 mid)).filter
          (fun p => p.id ≠ "b")).map asPeerInfo)
        (initPeer "b" demoName).name.displayName (initPeer "b" demoName).name.deviceName)] :=
  ⟨by decide, c7_welcome_roster (fun _ => false) demo3 demo3 "b" "r" "k1" none
    (initPeer "b" demoName) ⟨"k1", ["a"]⟩ demo3_reachable (by decide) (by decide) (by decide)
    (by decide) rfl⟩

/-- C8 counterexample: a perfectly well-formed `signal` message (decoded to
`some …`, not a JSON failure) still triggers the generic
`Invalid JSON message` error notice to its sender when the relay's unguarded
send to the stale target throws and lands in the message listener's catch
block.  The state is unchanged, so this is observationally identical to the
malformed-frame reply. -/
theorem c8_counterexample :
    some (InMsg.signal "b" none none) ≠ (none : Option InMsg) ∧
    (handleFrame (fun s => s == "b") demo5 "a" (some (InMsg.signal "b" none none))).2 =
      [("a", OutMsg.error "Invalid JSON message")] ∧
    (handleFrame (fun s => s == "b") demo5 "a" (some (InMsg.signal "b" none none))).1 =
      demo5 := by
  decide

/-- C8 (amended): an undecodable frame leaves every room, registry and peer
record exactly as it was, and the sender receives exactly the one generic
protocol-error notice provided its own socket is live; a well-formed message
produces no error notice as long as every send it performs succeeds (with a
throwing unicast send, e.g. a relay to a stale target, the same notice is
emitted by the catch block — see the counterexample). -/
theorem c8_protocol_error :
    (∀ (stale : String → Bool) (st : WState) (pid : String),
      (handleFrame stale st pid none).1 = st ∧
      (stale pid = false →
        (handleFrame stale st pid none).2 =
          [(pid, OutMsg.error "Invalid JSON message")])) ∧
    (∀ (st : WState) (pid : String) (m : InMsg),
      ∀ ev ∈ (handleFrame (fun _ => false) st pid (some m)).2, isError ev.2 = false) := by
  refine ⟨?_, ?_⟩
  · intro stale st pid
    refine ⟨rfl, ?_⟩
    intro hs
    show (sendTo stale pid (OutMsg.error "Invalid JSON message")).1 = _
    rw [sendTo_live _ hs]
  · intro st pid m
    rw [handleFrame_wellformed]
    exact onMessage_no_error (fun _ => false) st pid m

theorem c8_protocol_error_witness :
    ((fun _ => false : String → Bool) "a" = false) ∧
    (handleFrame (fun _ => false) demo5 "a" none).1 = demo5 ∧
    (handleFrame (fun _ => false) demo5 "a" none).2 =
      [("a", OutMsg.error "Invalid JSON message")] ∧
    (∀ ev ∈ (handleFrame (fun _ => false) demo5 "a"
        (some (InMsg.signal "b" none none))).2, isError ev.2 = false) :=
  ⟨rfl, (c8_protocol_error.1 (fun _ => false) demo5 "a").1,
    (c8_protocol_error.1 (fun _ => false) demo5 "a").2 rfl,
    c8_protocol_error.2 demo5 "a" (InMsg.signal "b" none none)⟩
